import Mathlib

/-
  Verification development for the charm URL parsing library.

  The source is a Go package providing:
    * a URL structure (Schema, User, Name, Revision, Series),
    * ParseURL, dispatching between three grammars:
        - parseV1URL   (compact legacy form   schema:~user/series/name-rev),
        - parseV3URL   (slash form            schema:user/name/series/rev),
        - parseV2URL   (web form              https://host/u/user/name/series/rev),
    * InferURL (series defaulting), String (canonical rendering), Quote (path escaping).

  Strings are modelled as lists of characters (Go strings are byte strings; all
  inputs relevant here are ASCII, and Quote is modelled separately on byte lists).
  Fallible functions return Except. The Go standard library pieces used by the
  source (net/url parsing, strconv.Atoi, strings.Split/Join/Trim) and the external
  validation oracles (juju/names IsValidUser, the supported-series vocabulary) are
  embedded below next to the functions that use them.
-/

namespace Charm

/-- Strings are modelled as lists of characters. -/
abbrev Str := List Char

/-- Conversion from Lean string literals. -/
def ofStr (s : String) : Str := s.data

/-- ASCII lowercase letter test (byte range of a to z). -/
def isLowerAZ (c : Char) : Bool := 97 ≤ c.toNat && c.toNat ≤ 122

/-- ASCII uppercase letter test (byte range of A to Z). -/
def isUpperAZ (c : Char) : Bool := 65 ≤ c.toNat && c.toNat ≤ 90

/-- ASCII decimal digit test, as used throughout the Go source. -/
def isDigitC (c : Char) : Bool := 48 ≤ c.toNat && c.toNat ≤ 57

/-- ASCII letter test (either case), as in net/url getScheme. -/
def isAlphaC (c : Char) : Bool := isLowerAZ c || isUpperAZ c

/-- Alphanumeric ASCII test, the head/last character class of user-name snippets. -/
def isAlnumC (c : Char) : Bool := isAlphaC c || isDigitC c

/-- ASCII lowering of one character, as in strings.ToLower on ASCII input. -/
def lowerC (c : Char) : Char :=
  if isUpperAZ c then Char.ofNat (c.toNat + 32) else c

/-- ASCII lowering of a string (net/url lowers the scheme). -/
def toLowerStr (s : Str) : Str := s.map lowerC

/-- Helper for strings.Split: returns the first separated piece and the later
pieces.  splitF sep s = (h, t) means splitOnC sep s = h :: t. -/
def splitF (sep : Char) : Str → Str × List Str
  | [] => ([], [])
  | a :: as =>
    let p := splitF sep as
    if a = sep then ([], p.1 :: p.2) else (a :: p.1, p.2)

/-- strings.Split(s, sep) for a one-character separator.  Like Go, the result
is never empty: splitting the empty string yields one empty piece. -/
def splitOnC (sep : Char) (s : Str) : List Str :=
  let p := splitF sep s
  p.1 :: p.2

/-- Go parts[0] on a part list (always non-empty for a split result). -/
def part0 (l : List Str) : Str :=
  match l with
  | [] => []
  | p :: _ => p

/-- strings.Join(parts, sep) for a one-character separator. -/
def joinSep (sep : Char) : List Str → Str
  | [] => []
  | [x] => x
  | x :: xs => x ++ sep :: joinSep sep xs

/-- Go split(s, c, true) as used by net/url for query and fragment: the part
before the first occurrence of c, and the part after it (empty when c is
absent; absence and a trailing separator are not distinguished by the caller,
which only compares the pieces with the empty string). -/
def cutAt (c : Char) : Str → Str × Str
  | [] => ([], [])
  | a :: as =>
    if a = c then ([], as)
    else
      let p := cutAt c as
      (a :: p.1, p.2)

/-- Go split(s, c, false) as used by net/url for the authority: the part before
the first occurrence of c, and the rest including c itself. -/
def cutKeep (c : Char) : Str → Str × Str
  | [] => ([], [])
  | a :: as =>
    if a = c then ([], a :: as)
    else
      let p := cutKeep c as
      (a :: p.1, p.2)

/-- strings.Trim(s, "/"): removes leading and trailing slashes. -/
def trimSlashes (s : Str) : Str :=
  ((s.dropWhile (fun c => c = '/')).reverse.dropWhile (fun c => c = '/')).reverse

/-- Value of a string of decimal digits, most significant first. -/
def digitsVal (s : Str) : Nat :=
  s.foldl (fun a c => 10 * a + (c.toNat - 48)) 0

/-- The largest value of Go's 64-bit int type. -/
def maxInt64 : Nat := 9223372036854775807

/-- strconv.Atoi: an optional single sign followed by one or more decimal
digits, with the 64-bit range check (out-of-range input yields ErrRange,
i.e. failure).  Result is none exactly when Go returns a non-nil error. -/
def go_atoi (s : Str) : Option Int :=
  match s with
  | [] => none
  | c :: t =>
    if c = '+' then
      if t ≠ [] ∧ t.all isDigitC = true ∧ digitsVal t ≤ maxInt64 then some (digitsVal t)
      else none
    else if c = '-' then
      if t ≠ [] ∧ t.all isDigitC = true ∧ digitsVal t ≤ maxInt64 + 1 then
        some (-(digitsVal t : Int))
      else none
    else
      if (c :: t).all isDigitC = true ∧ digitsVal (c :: t) ≤ maxInt64 then
        some (digitsVal (c :: t))
      else none

/-- Decimal rendering of a natural number, as fmt.Sprintf with a %d verb on a
non-negative value. -/
def natToDigits (n : Nat) : Str :=
  if h : n < 10 then [Char.ofNat (48 + n)]
  else natToDigits (n / 10) ++ [Char.ofNat (48 + n % 10)]
  termination_by n
  decreasing_by exact Nat.div_lt_self (by omega) (by omega)

/-- First character class of a valid name: a lowercase letter followed by
lowercase letters and digits (regex piece [a-z][a-z0-9]*). -/
def nameHeadSeg (l : Str) : Bool :=
  match l with
  | [] => false
  | c :: cs => isLowerAZ c && cs.all (fun d => isLowerAZ d || isDigitC d)

/-- Later hyphen groups of a valid name: lowercase letters and digits with at
least one letter (regex piece [a-z0-9]*[a-z][a-z0-9]*). -/
def nameTailSeg (l : Str) : Bool :=
  l.all (fun d => isLowerAZ d || isDigitC d) && l.any isLowerAZ

/-- IsValidName from the source: the regex
  a lowercase alphanumeric word starting with a letter, followed by hyphen
  groups each containing at least one letter
stated over the hyphen-split of the string (the groups contain no hyphen, so
the split is in bijection with the regex decomposition). -/
def IsValidName (s : Str) : Bool :=
  match splitOnC '-' s with
  | [] => false
  | f :: rest => nameHeadSeg f && rest.all nameTailSeg

/-- The supported-series vocabulary.  The source takes it from the external
series.SupportedSeries() oracle and adds the literal "bundle"; it is modelled
here as a fixed representative list (the Ubuntu series named in the tests,
plus "bundle"). -/
def validSeriesList : List Str :=
  [ofStr "precise", ofStr "quantal", ofStr "raring", ofStr "saucy",
   ofStr "trusty", ofStr "utopic", ofStr "vivid", ofStr "wily",
   ofStr "xenial", ofStr "bundle"]

/-- IsValidSeries from the source: membership in the fixed vocabulary. -/
def IsValidSeries (s : Str) : Bool :=
  decide (s ∈ validSeriesList)

/-- One user-name snippet of the external juju/names oracle: regex
[a-zA-Z0-9][a-zA-Z0-9.+-]*[a-zA-Z0-9] (at least two characters, alphanumeric
at both ends, dots, pluses and hyphens allowed inside). -/
def userSnippet (s : Str) : Bool :=
  match s with
  | [] => false
  | [_] => false
  | c :: cs =>
    isAlnumC c && isAlnumC (cs.getLastD ' ') &&
      cs.dropLast.all (fun d => isAlnumC d || d = '.' || d = '+' || d = '-')

/-- names.IsValidUser from the external juju/names oracle: one snippet,
optionally followed by an at sign and a domain snippet.  Snippets contain no
at sign, so the at-split matches the regex alternatives. -/
def IsValidUser (s : Str) : Bool :=
  match splitOnC '@' s with
  | [n] => userSnippet n
  | [n, d] => userSnippet n && userSnippet d
  | _ => false

/-- The URL structure from the source: Schema ("cs" or "local"), User, Name,
Revision (-1 when unset), Series ("" when unset). -/
structure URL where
  Schema : Str
  User : Str
  Name : Str
  Revision : Int
  Series : Str
deriving DecidableEq, Repr

/-- Error kinds of the parser, one per distinct error message in the source.
The panicStop case marks the panic in parseV1URL (a Go panic, not an error
return; it propagates out of every caller, which the model reflects because no
caller discards it). -/
inductive PErr where
  | malformedURL
  | unrecognizedParts
  | invalidSchema
  | localWithUser
  | invalidForm
  | invalidSeries
  | invalidUser
  | invalidName
  | noName
  | malformedRevision
  | malformedUserPath
  | unresolvedSeries
  | panicStop
deriving DecidableEq, Repr

/-- Parse results. -/
abbrev PRes := Except PErr URL

instance : DecidableEq PRes := fun a b => by
  cases a <;> cases b
  case error.error e f =>
    exact if h : e = f then .isTrue (by rw [h]) else .isFalse (by intro hh; cases hh; exact h rfl)
  case error.ok e x => exact .isFalse (by intro hh; cases hh)
  case ok.error x e => exact .isFalse (by intro hh; cases hh)
  case ok.ok x y =>
    exact if h : x = y then .isTrue (by rw [h]) else .isFalse (by intro hh; cases hh; exact h rfl)

/-- The parts of net/url's URL structure that the source reads: Scheme (already
lowered), Opaque, Path, RawQuery, Fragment, and whether user info was present
in the authority. -/
structure GoURL where
  scheme : Str
  opq : Str
  path : Str
  rawQuery : Str
  fragment : Str
  hasUser : Bool
deriving DecidableEq, Repr

/-- net/url getScheme: scan for a scheme prefix.  Letters may continue it;
digits, plus, minus and dot may continue it but not start it; a colon after at
least one character ends it; a colon first is an error (none); any other
character means the input has no scheme. -/
def schemeLoop (pre : Str) : Str → Option (Str × Str)
  | [] => some ([], pre.reverse)
  | c :: cs =>
    if isAlphaC c then schemeLoop (c :: pre) cs
    else if isDigitC c || c = '+' || c = '-' || c = '.' then
      if pre = [] then some ([], c :: cs) else schemeLoop (c :: pre) cs
    else if c = ':' then
      if pre = [] then none else some (pre.reverse, cs)
    else some ([], pre.reverse ++ c :: cs)

/-- getScheme over a whole input. -/
def getScheme (s : Str) : Option (Str × Str) := schemeLoop [] s

/-- net/url Parse, restricted to the fields the source reads.  The fragment is
cut at the first hash, the scheme is extracted and lowered, the query is cut at
the first question mark (a single trailing question mark is ForceQuery: the
raw query stays empty).  A rest that does not start with a slash is opaque
when a scheme is present; without a scheme, a colon in the first path segment
is an error.  A rest starting with a double slash carries an authority (cut at
the next slash); user info is present when the authority contains an at sign.
Percent-escape decoding and host validation are not modelled (no input
considered here contains them). -/
def goURLQuery (rest0 : Str) : Str × Str :=
  if rest0.getLast? = some '?' ∧ rest0.count '?' = 1 then (rest0.dropLast, ([] : Str))
  else cutAt '?' rest0

/-- Shape dispatch of net/url parse once fragment, scheme and query have been
removed: opaque form, authority form, or plain path (with the colon check on
the first segment of scheme-less relative paths). -/
def goURLRest (scheme rest1 frag query : Str) : Option GoURL :=
  if rest1.head? ≠ some '/' then
    if scheme ≠ [] then some ⟨scheme, rest1, [], query, frag, false⟩
    else if ((cutAt '/' rest1).1).contains ':' then none
    else some ⟨scheme, [], rest1, query, frag, false⟩
  else if rest1.take 2 = ['/', '/'] then
    some ⟨scheme, [], (cutKeep '/' (rest1.drop 2)).2, query, frag,
      ((cutKeep '/' (rest1.drop 2)).1).contains '@'⟩
  else some ⟨scheme, [], rest1, query, frag, false⟩

def goURLParse (s : Str) : Option GoURL :=
  match getScheme (cutAt '#' s).1 with
  | none => none
  | some (sc, rest0) =>
    goURLRest (toLowerStr sc) (goURLQuery rest0).1 (cutAt '#' s).2 (goURLQuery rest0).2

/-- The name-revision split loop at the end of parseV1URL: scan the name from
its last character leftwards over digits, stopping before position zero; when
the scan stops at a hyphen that is not the last character, the digit suffix is
converted with Atoi (panicking when conversion fails, which happens exactly on
64-bit range overflow) and the part before the hyphen becomes the name;
otherwise the whole segment is the name and the revision stays -1. -/
def v1NameRev (seg : Str) : Except PErr (Str × Int) :=
  match seg.reverse.dropWhile isDigitC with
  | [] => .ok (seg, -1)
  | c :: rest =>
    if c = '-' ∧ seg.reverse.takeWhile isDigitC ≠ [] ∧ rest ≠ [] then
      match go_atoi (seg.reverse.takeWhile isDigitC).reverse with
      | some n => .ok (rest.reverse, n)
      | none => .error .panicStop
    else .ok (seg, -1)

/-- Final phase of parseV1URL: name-revision split on the single remaining
segment, then user and name validation, in source order. -/
def v1Name (scheme user series : Str) (parts2 : List Str) : Except PErr URL :=
  if parts2.length < 1 then .error .noName
  else
    match v1NameRev (part0 parts2) with
    | .error e => .error e
    | .ok (name, rev) =>
      if user ≠ [] ∧ ¬ IsValidUser user = true then .error .invalidUser
      else if ¬ IsValidName name = true then .error .invalidName
      else .ok ⟨scheme, user, name, rev, series⟩

/-- Middle phase of parseV1URL, after the optional tilde-user prefix has been
removed: segment-count check, then the optional series segment. -/
def v1AfterTilde (scheme user : Str) (parts1 : List Str) : Except PErr URL :=
  if parts1.length > 2 then .error .invalidForm
  else if parts1.length = 2 ∧ ¬ IsValidSeries (part0 parts1) = true then
    .error .invalidSeries
  else if parts1.length = 2 then v1Name scheme user (part0 parts1) parts1.tail
  else v1Name scheme user [] parts1

/-- parseV1URL: the compact grammar schema:~user/series/name-revision.  The
original-URL argument of the source only feeds error messages and is dropped
here. -/
def parseV1 (u : GoURL) : Except PErr URL :=
  if u.scheme ≠ [] ∧ u.scheme ≠ ofStr "cs" ∧ u.scheme ≠ ofStr "local" then
    .error .invalidSchema
  else if (splitOnC '/' u.path).length < 1 ∨ (splitOnC '/' u.path).length > 4 then
    .error .invalidForm
  else if (part0 (splitOnC '/' u.path)).head? = some '~' ∧ u.scheme = ofStr "local" then
    .error .localWithUser
  else if (part0 (splitOnC '/' u.path)).head? = some '~' then
    v1AfterTilde u.scheme (part0 (splitOnC '/' u.path)).tail (splitOnC '/' u.path).tail
  else v1AfterTilde u.scheme [] (splitOnC '/' u.path)

/-- Revision step of parseV3URL on the reversed part list: consume the last
part when Atoi accepts it. -/
def v3TakeRev (rp : List Str) : Int × List Str :=
  match rp with
  | [] => (-1, [])
  | p :: rest =>
    match go_atoi p with
    | some n => (n, rest)
    | none => (-1, p :: rest)

/-- Series step of parseV3URL: consume the (new) last part when it is a valid
series. -/
def v3TakeSeries (rp : List Str) : Str × List Str :=
  match rp with
  | [] => ([], [])
  | p :: rest => if IsValidSeries p = true then (p, rest) else ([], p :: rest)

/-- Final phase of parseV3URL: mandatory name, optional user, and the check
that every part has been consumed. -/
def v3Core (scheme series : Str) (rev : Int) (rp : List Str) : Except PErr URL :=
  match rp with
  | [] => .error .invalidName
  | p :: rest =>
    if ¬ IsValidName p = true then .error .invalidName
    else
      match rest with
      | [] => .ok ⟨scheme, [], p, rev, series⟩
      | q :: rest2 =>
        if ¬ IsValidUser q = true then .error .invalidUser
        else if rest2 ≠ [] then .error .unrecognizedParts
        else .ok ⟨scheme, q, p, rev, series⟩

/-- parseV3URL: the slash grammar schema:user/name/series/revision, consumed
from the last segment backwards.  The source walks an index from the last
part; the reversed part list is consumed here instead. -/
def parseV3 (u : GoURL) : Except PErr URL :=
  if u.scheme ≠ [] ∧ u.scheme ≠ ofStr "cs" ∧ u.scheme ≠ ofStr "local" then
    .error .invalidSchema
  else if (splitOnC '/' u.path).length < 1 then .error .invalidName
  else if (splitOnC '/' u.path).length > 4 then .error .unrecognizedParts
  else
    v3Core u.scheme
      (v3TakeSeries (v3TakeRev ((splitOnC '/' u.path).reverse)).2).1
      (v3TakeRev ((splitOnC '/' u.path).reverse)).1
      (v3TakeSeries (v3TakeRev ((splitOnC '/' u.path).reverse)).2).2

/-- Revision-or-series consumption of parseV2URL on the parts after the name:
a numeric second segment is the revision (later parts are left unexamined);
otherwise a validated series, optionally followed by exactly one numeric
revision segment. -/
def v2RevSeries (parts2 : List Str) : Except PErr (Int × Str) :=
  match parts2 with
  | [] => .ok (-1, [])
  | q :: rest =>
    match go_atoi q with
    | some n => .ok (n, [])
    | none =>
      if ¬ IsValidSeries q = true then .error .invalidSeries
      else
        match rest with
        | [] => .ok (-1, q)
        | [r0] =>
          match go_atoi r0 with
          | some n => .ok (n, q)
          | none => .error .malformedRevision
        | _ => .error .invalidForm

/-- Final phase of parseV2URL: user and name validation and assembly (the
schema is always "cs" for web URLs). -/
def v2Assemble (user name : Str) (rs : Except PErr (Int × Str)) : Except PErr URL :=
  match rs with
  | .error e => .error e
  | .ok (rev, series) =>
    if user ≠ [] ∧ ¬ IsValidUser user = true then .error .invalidUser
    else if ¬ IsValidName name = true then .error .invalidName
    else .ok ⟨ofStr "cs", user, name, rev, series⟩

def parseV2 (u : GoURL) : Except PErr URL :=
  if part0 (splitOnC '/' (trimSlashes u.path)) = ofStr "u" ∧
      (splitOnC '/' (trimSlashes u.path)).length < 3 then .error .malformedUserPath
  else if part0 (splitOnC '/' (trimSlashes u.path)) = ofStr "u" then
    v2Assemble (part0 (splitOnC '/' (trimSlashes u.path)).tail)
      (part0 (splitOnC '/' (trimSlashes u.path)).tail.tail)
      (v2RevSeries (splitOnC '/' (trimSlashes u.path)).tail.tail.tail)
  else
    v2Assemble [] (part0 (splitOnC '/' (trimSlashes u.path)))
      (v2RevSeries (splitOnC '/' (trimSlashes u.path)).tail)

/-- parseNonWebURL: when the first path segment is a valid series the compact
grammar is used directly; otherwise the slash grammar is tried and, on any
failure, the compact grammar is retried and its own outcome returned. -/
def parseNonWebURL (u : GoURL) : Except PErr URL :=
  if IsValidSeries (part0 (splitOnC '/' u.path)) = true then parseV1 u
  else
    match parseV3 u with
    | .ok r => .ok r
    | .error _ => parseV1 u

/-- ParseURL: parse as a generic URL, reject query strings, fragments and
embedded user info, dispatch on shape (opaque, web, bare), and default an
empty schema to "cs". -/
def ParseURL (s : Str) : Except PErr URL :=
  match goURLParse s with
  | none => .error .malformedURL
  | some u =>
    if u.rawQuery ≠ [] ∨ u.fragment ≠ [] ∨ u.hasUser then .error .unrecognizedParts
    else
      match (if u.opq ≠ [] then parseNonWebURL { u with path := u.opq }
             else if u.scheme = ofStr "http" ∨ u.scheme = ofStr "https" then parseV2 u
             else parseNonWebURL u) with
      | .error e => .error e
      | .ok c => .ok (if c.Schema = [] then { c with Schema := ofStr "cs" } else c)

/-- InferURL: parse, then fill an unset series from the default, failing when
the default is itself empty. -/
def InferURL (src defaultSeries : Str) : Except PErr URL :=
  match ParseURL src with
  | .error e => .error e
  | .ok u =>
    if u.Series = [] then
      if defaultSeries = [] then .error .unresolvedSeries
      else .ok { u with Series := defaultSeries }
    else .ok u

/-- URL.String: schema:user/name/series/revision with user, series and
revision included only when set. -/
def urlString (u : URL) : Str :=
  u.Schema ++ ':' :: joinSep '/'
    ((if u.User ≠ [] then [u.User] else []) ++ [u.Name] ++
     (if u.Series ≠ [] then [u.Series] else []) ++
     (if u.Revision ≥ 0 then [natToDigits u.Revision.toNat] else []))

/-- The bytes Quote passes through unchanged: ASCII letters, digits, dot and
hyphen. -/
def isSafeByte (b : Nat) : Bool :=
  (97 ≤ b && b ≤ 122) || (65 ≤ b && b ≤ 90) || (48 ≤ b && b ≤ 57) || b = 46 || b = 45

/-- Lowercase hex digit of a value below 16, as a byte. -/
def hexDigit (n : Nat) : Nat := if n < 10 then 48 + n else 87 + n

/-- Translation of a single byte: safe bytes stay, others become their
two-digit lowercase hex value surrounded by underscores (byte 95). -/
def quoteByte (b : Nat) : List Nat :=
  if isSafeByte b then [b] else [95, hexDigit (b / 16), hexDigit (b % 16), 95]

/-- Quote from the source, on byte strings. -/
def Quote : List Nat → List Nat
  | [] => []
  | b :: t => quoteByte b ++ Quote t

/-- Byte string of an ASCII Lean string literal, for concrete Quote inputs. -/
def ofBytes (s : String) : List Nat := s.data.map Char.toNat

/-- Field validity established by any parser: the statement shared by the
three grammars (schema possibly still empty before the dispatcher default). -/
def FieldsOK (r : URL) : Prop :=
  (r.Schema = [] ∨ r.Schema = ofStr "cs" ∨ r.Schema = ofStr "local") ∧
  IsValidName r.Name = true ∧
  (r.User = [] ∨ IsValidUser r.User = true) ∧
  (r.Series = [] ∨ IsValidSeries r.Series = true) ∧
  (-((maxInt64 : Int) + 1) ≤ r.Revision ∧ r.Revision ≤ (maxInt64 : Int))


/-! ### Lemmas about the string helpers -/

theorem toNat_ofNat_small (n : Nat) (h : n < 128) : (Char.ofNat n).toNat = n := by
  have hv : n.isValidChar := Or.inl (by omega)
  simp [Char.ofNat, hv, Char.ofNatAux, Char.toNat, UInt32.toNat, UInt32.ofNatCore]

theorem splitF_sep_append (c : Char) (xs ys : Str) :
    splitF c (xs ++ c :: ys) = ((splitF c xs).1, (splitF c xs).2 ++ splitOnC c ys) := by
  induction xs with
  | nil => simp [splitF, splitOnC]
  | cons a as ih => by_cases h : a = c <;> simp [splitF, h, ih]

theorem splitOnC_sep_append (c : Char) (xs ys : Str) :
    splitOnC c (xs ++ c :: ys) = splitOnC c xs ++ splitOnC c ys := by
  simp [splitOnC, splitF_sep_append]

theorem splitF_no_sep (c : Char) (xs : Str) (h : c ∉ xs) : splitF c xs = (xs, []) := by
  induction xs with
  | nil => simp [splitF]
  | cons a as ih =>
    rw [List.mem_cons, not_or] at h
    have ha : ¬ a = c := fun hh => h.1 hh.symm
    simp [splitF, ha, ih h.2]

theorem splitOnC_no_sep (c : Char) (xs : Str) (h : c ∉ xs) : splitOnC c xs = [xs] := by
  simp [splitOnC, splitF_no_sep c xs h]

theorem splitOnC_joinSep (c : Char) (parts : List Str) (hne : parts ≠ [])
    (h : ∀ p ∈ parts, c ∉ p) : splitOnC c (joinSep c parts) = parts := by
  induction parts with
  | nil => exact absurd rfl hne
  | cons p ps ih =>
    cases ps with
    | nil => simpa [joinSep] using splitOnC_no_sep c p (h p (by simp))
    | cons q qs =>
      have hj : joinSep c (p :: q :: qs) = p ++ c :: joinSep c (q :: qs) := rfl
      rw [hj, splitOnC_sep_append, splitOnC_no_sep c p (h p (by simp)),
        ih (by simp) (fun x hx => h x (List.mem_cons_of_mem p hx))]
      rfl

theorem joinSep_splitOnC (c : Char) (s : Str) : joinSep c (splitOnC c s) = s := by
  induction s with
  | nil => rfl
  | cons a as ih =>
    by_cases h : a = c
    · subst h
      show joinSep a (splitOnC a (a :: as)) = a :: as
      have : splitOnC a (a :: as) = [] :: splitOnC a as := by simp [splitOnC, splitF]
      rw [this]
      rcases hs : splitOnC a as with _ | ⟨x, xs⟩
      · exact absurd hs (by simp [splitOnC])
      · rw [hs] at ih
        show [] ++ a :: joinSep a (x :: xs) = a :: as
        simpa using congrArg (fun t => a :: t) ih
    · have hsf : splitF c (a :: as) = (a :: (splitF c as).1, (splitF c as).2) := by
        simp [splitF, h]
      have hs0 : splitOnC c (a :: as) = (a :: (splitF c as).1) :: (splitF c as).2 := by
        simp [splitOnC, hsf]
      rw [hs0]
      rcases ht : (splitF c as).2 with _ | ⟨x, xs⟩
      · show a :: (splitF c as).1 = a :: as
        have : joinSep c (splitOnC c as) = (splitF c as).1 := by
          simp [splitOnC, ht, joinSep]
        rw [this] at ih
        rw [ih]
      · show (a :: (splitF c as).1) ++ c :: joinSep c (x :: xs) = a :: as
        have hu : joinSep c (splitOnC c as) = (splitF c as).1 ++ c :: joinSep c (x :: xs) := by
          simp [splitOnC, ht]
          rfl
        rw [hu] at ih
        simpa using ih

theorem mem_joinSep {d c : Char} (parts : List Str) (h : d ∈ joinSep c parts) :
    (∃ p ∈ parts, d ∈ p) ∨ d = c := by
  induction parts with
  | nil => simp [joinSep] at h
  | cons p ps ih =>
    cases ps with
    | nil =>
      simp [joinSep] at h
      exact Or.inl ⟨p, by simp, h⟩
    | cons q qs =>
      have hj : joinSep c (p :: q :: qs) = p ++ c :: joinSep c (q :: qs) := rfl
      rw [hj, List.mem_append] at h
      rcases h with h | h
      · exact Or.inl ⟨p, by simp, h⟩
      · rw [List.mem_cons] at h
        rcases h with h | h
        · exact Or.inr h
        · rcases ih h with ⟨x, hx, hd⟩ | h2
          · exact Or.inl ⟨x, List.mem_cons_of_mem p hx, hd⟩
          · exact Or.inr h2

theorem cutAt_no_mem (c : Char) (s : Str) (h : c ∉ s) : cutAt c s = (s, []) := by
  induction s with
  | nil => rfl
  | cons a as ih =>
    rw [List.mem_cons, not_or] at h
    have ha : ¬ a = c := fun hh => h.1 hh.symm
    simp [cutAt, ha, ih h.2]

theorem takeWhile_all_append (p : Char → Bool) (xs : Str) (y : Char) (ys : Str)
    (hxs : xs.all p = true) (hy : p y = false) :
    (xs ++ y :: ys).takeWhile p = xs ∧ (xs ++ y :: ys).dropWhile p = y :: ys := by
  induction xs with
  | nil => simp [List.takeWhile, List.dropWhile, hy]
  | cons a as ih =>
    rw [List.all_cons, Bool.and_eq_true] at hxs
    have := ih hxs.2
    simp [List.takeWhile, List.dropWhile, hxs.1, this.1, this.2]

theorem takeWhile_dropWhile_eq (p : Char → Bool) (l : Str) :
    l.takeWhile p ++ l.dropWhile p = l := by
  induction l with
  | nil => rfl
  | cons a as ih =>
    by_cases h : p a
    · simp [List.takeWhile, List.dropWhile, h, ih]
    · simp [List.takeWhile, List.dropWhile, h]

theorem all_takeWhile_self (p : Char → Bool) (l : Str) : (l.takeWhile p).all p = true := by
  induction l with
  | nil => rfl
  | cons a as ih =>
    by_cases h : p a
    · simp [List.takeWhile, h, ih]
    · simp [List.takeWhile, h]

theorem digitsVal_append_last (xs : Str) (c : Char) :
    digitsVal (xs ++ [c]) = 10 * digitsVal xs + (c.toNat - 48) := by
  simp [digitsVal, List.foldl_append]

theorem natToDigits_ne_nil (n : Nat) : natToDigits n ≠ [] := by
  unfold natToDigits
  split <;> simp

theorem natToDigits_all_digits (n : Nat) : (natToDigits n).all isDigitC = true := by
  induction n using Nat.strong_induction_on with
  | _ n ih =>
    unfold natToDigits
    split
    · rename_i h
      simp [isDigitC, toNat_ofNat_small (48 + n) (by omega)]
      omega
    · rename_i h
      rw [List.all_append, Bool.and_eq_true]
      refine ⟨ih (n / 10) (Nat.div_lt_self (by omega) (by omega)), ?_⟩
      have hm : n % 10 < 10 := Nat.mod_lt _ (by omega)
      simp [isDigitC, toNat_ofNat_small (48 + n % 10) (by omega)]
      omega

theorem digitsVal_natToDigits (n : Nat) : digitsVal (natToDigits n) = n := by
  induction n using Nat.strong_induction_on with
  | _ n ih =>
    unfold natToDigits
    split
    · rename_i h
      simp [digitsVal, toNat_ofNat_small (48 + n) (by omega)]
    · rename_i h
      rw [digitsVal_append_last, ih (n / 10) (Nat.div_lt_self (by omega) (by omega)),
        toNat_ofNat_small (48 + n % 10) (by omega)]
      omega

/-! ### Lemmas about Atoi and the validators -/

theorem digit_not_plus {c : Char} (h : isDigitC c = true) : ¬ c = '+' := by
  intro hc
  subst hc
  simp [isDigitC] at h

theorem digit_not_minus {c : Char} (h : isDigitC c = true) : ¬ c = '-' := by
  intro hc
  subst hc
  simp [isDigitC] at h

theorem go_atoi_digits (s : Str) (hne : s ≠ []) (hd : s.all isDigitC = true) :
    go_atoi s = if digitsVal s ≤ maxInt64 then some ((digitsVal s : Int)) else none := by
  cases s with
  | nil => exact absurd rfl hne
  | cons c t =>
    have hc : isDigitC c = true := by
      rw [List.all_cons, Bool.and_eq_true] at hd
      exact hd.1
    simp [go_atoi, digit_not_plus hc, digit_not_minus hc, hd]

theorem go_atoi_natToDigits (n : Nat) (h : n ≤ maxInt64) :
    go_atoi (natToDigits n) = some (n : Int) := by
  rw [go_atoi_digits (natToDigits n) (natToDigits_ne_nil n) (natToDigits_all_digits n),
    digitsVal_natToDigits]
  simp [h]

theorem go_atoi_not_digit_head (c : Char) (t : Str) (h : isDigitC c = false)
    (hp : ¬ c = '+') (hm : ¬ c = '-') : go_atoi (c :: t) = none := by
  simp [go_atoi, hp, hm, h]

theorem go_atoi_bounds (s : Str) (n : Int) (h : go_atoi s = some n) :
    n ≤ (maxInt64 : Int) ∧ -((maxInt64 : Int) + 1) ≤ n := by
  unfold go_atoi at h
  split at h
  · exact absurd h (by simp)
  · split at h
    · split at h
      · rename_i hcond
        rw [Option.some_inj] at h
        omega
      · exact absurd h (by simp)
    · split at h
      · split at h
        · rename_i hcond
          rw [Option.some_inj] at h
          omega
        · exact absurd h (by simp)
      · split at h
        · rename_i hcond
          rw [Option.some_inj] at h
          omega
        · exact absurd h (by simp)

theorem go_atoi_nonneg_of_digits (s : Str) (n : Int) (hd : s.all isDigitC = true)
    (h : go_atoi s = some n) : 0 ≤ n := by
  cases s with
  | nil => simp [go_atoi] at h
  | cons c t =>
    have hc : isDigitC c = true := by
      rw [List.all_cons, Bool.and_eq_true] at hd
      exact hd.1
    rw [go_atoi_digits (c :: t) (by simp) hd] at h
    split at h
    · rw [Option.some_inj] at h
      omega
    · exact absurd h (by simp)

theorem lower_not_digit {c : Char} (h : isLowerAZ c = true) : isDigitC c = false := by
  simp [isLowerAZ, Bool.and_eq_true] at h
  simp [isDigitC]
  omega

theorem lower_not_plus {c : Char} (h : isLowerAZ c = true) : ¬ c = '+' := by
  intro hc
  subst hc
  simp [isLowerAZ] at h

theorem lower_not_minus {c : Char} (h : isLowerAZ c = true) : ¬ c = '-' := by
  intro hc
  subst hc
  simp [isLowerAZ] at h

theorem alnum_not_chars {c : Char} (h : isAlnumC c = true) :
    ¬ c = '~' ∧ ¬ c = '/' ∧ ¬ c = '+' ∧ ¬ c = '-' := by
  simp [isAlnumC, isAlphaC, isLowerAZ, isUpperAZ, isDigitC, Bool.or_eq_true,
    Bool.and_eq_true] at h
  refine ⟨?_, ?_, ?_, ?_⟩ <;> intro hc <;> subst hc <;> simp at h

theorem digit_not_sep {c : Char} (h : isDigitC c = true) :
    ¬ c = '-' ∧ ¬ c = '/' ∧ ¬ c = ':' ∧ ¬ c = '#' ∧ ¬ c = '?' := by
  simp [isDigitC, Bool.and_eq_true] at h
  refine ⟨?_, ?_, ?_, ?_, ?_⟩ <;> intro hc <;> subst hc <;> simp at h

theorem nameHeadSeg_chars (f : Str) (h : nameHeadSeg f = true) :
    ∀ d ∈ f, isLowerAZ d = true ∨ isDigitC d = true := by
  cases f with
  | nil => simp [nameHeadSeg] at h
  | cons c cs =>
    rw [nameHeadSeg, Bool.and_eq_true] at h
    intro d hd
    rcases List.mem_cons.mp hd with rfl | hdm
    · exact Or.inl h.1
    · have hx := List.all_eq_true.mp h.2 d hdm
      simpa [Bool.or_eq_true] using hx

theorem nameTailSeg_chars (g : Str) (h : nameTailSeg g = true) :
    ∀ d ∈ g, isLowerAZ d = true ∨ isDigitC d = true := by
  rw [nameTailSeg, Bool.and_eq_true] at h
  intro d hd
  have hx := List.all_eq_true.mp h.1 d hd
  simpa [Bool.or_eq_true] using hx

theorem isValidName_segments (nm : Str) (h : IsValidName nm = true) :
    ∃ f rest, splitOnC '-' nm = f :: rest ∧ nameHeadSeg f = true ∧
      rest.all nameTailSeg = true := by
  unfold IsValidName at h
  rcases hs : splitOnC '-' nm with _ | ⟨f, rest⟩
  · rw [hs] at h
    simp at h
  · rw [hs, Bool.and_eq_true] at h
    exact ⟨f, rest, rfl, h.1, h.2⟩

theorem isValidName_chars (nm : Str) (h : IsValidName nm = true) :
    ∀ d ∈ nm, isLowerAZ d = true ∨ isDigitC d = true ∨ d = '-' := by
  intro d hd
  obtain ⟨f, rest, hs, hf, hrest⟩ := isValidName_segments nm h
  rw [← joinSep_splitOnC '-' nm, hs] at hd
  rcases mem_joinSep (f :: rest) hd with ⟨p, hp, hdp⟩ | h2
  · rcases List.mem_cons.mp hp with rfl | hpm
    · rcases nameHeadSeg_chars p hf d hdp with h3 | h3
      · exact Or.inl h3
      · exact Or.inr (Or.inl h3)
    · have hseg := List.all_eq_true.mp hrest p hpm
      rcases nameTailSeg_chars p hseg d hdp with h3 | h3
      · exact Or.inl h3
      · exact Or.inr (Or.inl h3)
  · exact Or.inr (Or.inr h2)

theorem name_head (nm : Str) (h : IsValidName nm = true) :
    ∃ c cs, nm = c :: cs ∧ isLowerAZ c = true := by
  obtain ⟨f, rest, hs, hf, _⟩ := isValidName_segments nm h
  cases f with
  | nil => simp [nameHeadSeg] at hf
  | cons c cs0 =>
    rw [nameHeadSeg, Bool.and_eq_true] at hf
    have hj := joinSep_splitOnC '-' nm
    rw [hs] at hj
    cases rest with
    | nil => exact ⟨c, cs0, by rw [← hj]; rfl, hf.1⟩
    | cons q qs =>
      refine ⟨c, cs0 ++ '-' :: joinSep '-' (q :: qs), ?_, hf.1⟩
      rw [← hj]
      rfl

theorem name_ne_nil (nm : Str) (h : IsValidName nm = true) : nm ≠ [] := by
  obtain ⟨c, cs, rfl, _⟩ := name_head nm h
  simp

theorem go_atoi_name (nm : Str) (h : IsValidName nm = true) : go_atoi nm = none := by
  obtain ⟨c, cs, rfl, hc⟩ := name_head nm h
  exact go_atoi_not_digit_head c cs (lower_not_digit hc) (lower_not_plus hc)
    (lower_not_minus hc)

theorem hyphen_digits_not_name (pre ds : Str) (hall : ds.all isDigitC = true) :
    ¬ IsValidName (pre ++ '-' :: ds) = true := by
  intro h
  have hnds : ('-' : Char) ∉ ds := by
    intro hm
    have := List.all_eq_true.mp hall _ hm
    simp [isDigitC] at this
  have hs : splitOnC '-' (pre ++ '-' :: ds) = splitOnC '-' pre ++ [ds] := by
    rw [splitOnC_sep_append, splitOnC_no_sep '-' ds hnds]
  obtain ⟨f, rest, hseg, _, hrest⟩ := isValidName_segments _ h
  rw [hs] at hseg
  have hpre : splitOnC '-' pre = (splitF '-' pre).1 :: (splitF '-' pre).2 := rfl
  rw [hpre] at hseg
  have hds : ds ∈ rest := by
    have hcons : (splitF '-' pre).1 :: ((splitF '-' pre).2 ++ [ds]) = f :: rest := by
      simpa using hseg
    have hr : rest = (splitF '-' pre).2 ++ [ds] :=
      ((List.cons.injEq _ _ _ _).mp hcons).2.symm
    rw [hr]
    simp
  have hts := List.all_eq_true.mp hrest ds hds
  rw [nameTailSeg, Bool.and_eq_true] at hts
  obtain ⟨d, hd, hdl⟩ := List.any_eq_true.mp hts.2
  have hdd := List.all_eq_true.mp hall d hd
  have hcontra := lower_not_digit hdl
  rw [hdd] at hcontra
  exact absurd hcontra (by simp)

theorem all_reverse_eq (p : Char → Bool) (l : Str) : l.reverse.all p = l.all p := by
  induction l with
  | nil => rfl
  | cons a as ih => simp [List.all_append, ih, Bool.and_comm]

theorem v1NameRev_eq_nil (seg : Str) (h : seg.reverse.dropWhile isDigitC = []) :
    v1NameRev seg = .ok (seg, -1) := by
  unfold v1NameRev
  rw [h]

theorem v1NameRev_eq_cons (seg : Str) (c : Char) (rest : Str)
    (h : seg.reverse.dropWhile isDigitC = c :: rest) :
    v1NameRev seg =
      if c = '-' ∧ seg.reverse.takeWhile isDigitC ≠ [] ∧ rest ≠ [] then
        match go_atoi (seg.reverse.takeWhile isDigitC).reverse with
        | some n => .ok (rest.reverse, n)
        | none => .error .panicStop
      else .ok (seg, -1) := by
  unfold v1NameRev
  rw [h]

theorem v1NameRev_of_valid (nm : Str) (h : IsValidName nm = true) :
    v1NameRev nm = .ok (nm, -1) := by
  rcases hrest : nm.reverse.dropWhile isDigitC with _ | ⟨c, rest2⟩
  · exact v1NameRev_eq_nil nm hrest
  · rw [v1NameRev_eq_cons nm c rest2 hrest]
    by_cases hcond : c = '-' ∧ nm.reverse.takeWhile isDigitC ≠ [] ∧ rest2 ≠ []
    · exfalso
      obtain ⟨hc, hds, _⟩ := hcond
      have hsplit := takeWhile_dropWhile_eq isDigitC nm.reverse
      rw [hrest, hc] at hsplit
      have hnm : nm = rest2.reverse ++ '-' :: (nm.reverse.takeWhile isDigitC).reverse := by
        calc nm = nm.reverse.reverse := (List.reverse_reverse nm).symm
          _ = (nm.reverse.takeWhile isDigitC ++ '-' :: rest2).reverse := by rw [hsplit]
          _ = rest2.reverse ++ '-' :: (nm.reverse.takeWhile isDigitC).reverse := by simp
      have hall : ((nm.reverse.takeWhile isDigitC).reverse).all isDigitC = true := by
        rw [all_reverse_eq]
        exact all_takeWhile_self isDigitC nm.reverse
      exact hyphen_digits_not_name _ _ hall (hnm ▸ h)
    · rw [if_neg hcond]

theorem v1NameRev_shape (seg nm : Str) (rev : Int)
    (h : v1NameRev seg = .ok (nm, rev)) (hrev : rev ≠ -1) :
    seg = nm ++ '-' :: (seg.reverse.takeWhile isDigitC).reverse ∧
    (seg.reverse.takeWhile isDigitC).reverse ≠ [] ∧
    ((seg.reverse.takeWhile isDigitC).reverse).all isDigitC = true ∧ nm ≠ [] ∧
    go_atoi ((seg.reverse.takeWhile isDigitC).reverse) = some rev := by
  rcases hrest : seg.reverse.dropWhile isDigitC with _ | ⟨c, rest2⟩
  · rw [v1NameRev_eq_nil seg hrest] at h
    simp at h
    exact absurd h.2.symm hrev
  · rw [v1NameRev_eq_cons seg c rest2 hrest] at h
    by_cases hcond : c = '-' ∧ seg.reverse.takeWhile isDigitC ≠ [] ∧ rest2 ≠ []
    · rw [if_pos hcond] at h
      rcases hat : go_atoi (seg.reverse.takeWhile isDigitC).reverse with _ | n
      · rw [hat] at h
        simp at h
      · rw [hat] at h
        simp at h
        obtain ⟨hm, hrv⟩ := h
        obtain ⟨hc, hds, hr2⟩ := hcond
        have hsplit := takeWhile_dropWhile_eq isDigitC seg.reverse
        rw [hrest, hc] at hsplit
        refine ⟨?_, by simpa using hds, ?_, ?_, by rw [← hrv]⟩
        · calc seg = seg.reverse.reverse := (List.reverse_reverse seg).symm
            _ = (seg.reverse.takeWhile isDigitC ++ '-' :: rest2).reverse := by rw [hsplit]
            _ = rest2.reverse ++ '-' :: (seg.reverse.takeWhile isDigitC).reverse := by simp
            _ = nm ++ '-' :: (seg.reverse.takeWhile isDigitC).reverse := by rw [hm]
        · rw [all_reverse_eq]
          exact all_takeWhile_self isDigitC seg.reverse
        · rw [← hm]
          simpa using hr2
    · rw [if_neg hcond] at h
      simp at h
      exact absurd h.2.symm hrev

theorem v1NameRev_rev_cases (seg nm : Str) (rev : Int)
    (h : v1NameRev seg = .ok (nm, rev)) :
    rev = -1 ∨ (0 ≤ rev ∧ rev ≤ (maxInt64 : Int)) := by
  by_cases hrev : rev = -1
  · exact Or.inl hrev
  · obtain ⟨_, _, hall, _, hat⟩ := v1NameRev_shape seg nm rev h hrev
    exact Or.inr ⟨go_atoi_nonneg_of_digits _ _ hall hat, (go_atoi_bounds _ _ hat).1⟩

theorem v1NameRev_panic_iff (seg : Str) :
    v1NameRev seg = .error .panicStop ↔
      ∃ nm ds, seg = nm ++ '-' :: ds ∧ nm ≠ [] ∧ ds ≠ [] ∧ ds.all isDigitC = true ∧
        maxInt64 < digitsVal ds := by
  constructor
  · intro h
    rcases hrest : seg.reverse.dropWhile isDigitC with _ | ⟨c, rest2⟩
    · rw [v1NameRev_eq_nil seg hrest] at h
      simp at h
    · rw [v1NameRev_eq_cons seg c rest2 hrest] at h
      by_cases hcond : c = '-' ∧ seg.reverse.takeWhile isDigitC ≠ [] ∧ rest2 ≠ []
      · rw [if_pos hcond] at h
        rcases hat : go_atoi (seg.reverse.takeWhile isDigitC).reverse with _ | n
        · obtain ⟨hc, hds, hr2⟩ := hcond
          have hsplit := takeWhile_dropWhile_eq isDigitC seg.reverse
          rw [hrest, hc] at hsplit
          have hall : ((seg.reverse.takeWhile isDigitC).reverse).all isDigitC = true := by
            rw [all_reverse_eq]
            exact all_takeWhile_self isDigitC seg.reverse
          refine ⟨rest2.reverse, (seg.reverse.takeWhile isDigitC).reverse, ?_,
            by simpa using hr2, by simpa using hds, hall, ?_⟩
          · calc seg = seg.reverse.reverse := (List.reverse_reverse seg).symm
              _ = (seg.reverse.takeWhile isDigitC ++ '-' :: rest2).reverse := by rw [hsplit]
              _ = rest2.reverse ++ '-' :: (seg.reverse.takeWhile isDigitC).reverse := by simp
          · rw [go_atoi_digits _ (by simpa using hds) hall] at hat
            split at hat
            · exact absurd hat (by simp)
            · rename_i hgt
              omega
        · rw [hat] at h
          simp at h
      · rw [if_neg hcond] at h
        simp at h
  · rintro ⟨nm, ds, rfl, hnm, hds, hall, hval⟩
    have hrev : (nm ++ '-' :: ds).reverse = ds.reverse ++ '-' :: nm.reverse := by simp
    have htk := takeWhile_all_append isDigitC ds.reverse '-' nm.reverse
      (by rw [all_reverse_eq]; exact hall) (by simp [isDigitC])
    have hdrop : (nm ++ '-' :: ds).reverse.dropWhile isDigitC = '-' :: nm.reverse := by
      rw [hrev]
      exact htk.2
    have htake : (nm ++ '-' :: ds).reverse.takeWhile isDigitC = ds.reverse := by
      rw [hrev]
      exact htk.1
    rw [v1NameRev_eq_cons _ '-' nm.reverse hdrop]
    rw [if_pos ⟨rfl, by rw [htake]; simpa using hds, by simpa using hnm⟩]
    rw [htake, List.reverse_reverse, go_atoi_digits ds hds hall, if_neg (by omega)]

theorem dropLast_getLastD (l : Str) (w : Char) (h : l ≠ []) :
    l.dropLast ++ [l.getLastD w] = l := by
  induction l with
  | nil => exact absurd rfl h
  | cons a as ih =>
    cases as with
    | nil => simp
    | cons b bs =>
      rw [show (a :: b :: bs).dropLast = a :: (b :: bs).dropLast by simp,
        show (a :: b :: bs).getLastD w = (b :: bs).getLastD w by simp [List.getLastD],
        List.cons_append, ih (by simp)]

theorem userSnippet_head (p : Str) (h : userSnippet p = true) :
    ∃ c cs, p = c :: cs ∧ isAlnumC c = true := by
  rcases p with _ | ⟨c, cs⟩
  · simp [userSnippet] at h
  · rcases cs with _ | ⟨x, cs2⟩
    · simp [userSnippet] at h
    · have hu : userSnippet (c :: x :: cs2) =
          (isAlnumC c && isAlnumC ((x :: cs2).getLastD ' ') &&
            (x :: cs2).dropLast.all
              (fun d => isAlnumC d || d = '.' || d = '+' || d = '-')) := rfl
      rw [hu, Bool.and_eq_true, Bool.and_eq_true] at h
      exact ⟨c, x :: cs2, rfl, h.1.1⟩

theorem userSnippet_chars (p : Str) (h : userSnippet p = true) :
    ∀ d ∈ p, isAlnumC d = true ∨ d = '.' ∨ d = '+' ∨ d = '-' := by
  rcases p with _ | ⟨c, cs⟩
  · simp [userSnippet] at h
  · rcases cs with _ | ⟨x, cs2⟩
    · simp [userSnippet] at h
    · have hu : userSnippet (c :: x :: cs2) =
          (isAlnumC c && isAlnumC ((x :: cs2).getLastD ' ') &&
            (x :: cs2).dropLast.all
              (fun d => isAlnumC d || d = '.' || d = '+' || d = '-')) := rfl
      rw [hu, Bool.and_eq_true, Bool.and_eq_true] at h
      obtain ⟨⟨hc, hl⟩, hmid⟩ := h
      intro d hd
      rcases List.mem_cons.mp hd with rfl | hd2
      · exact Or.inl hc
      · rw [← dropLast_getLastD (x :: cs2) ' ' (by simp)] at hd2
        rcases List.mem_append.mp hd2 with hdm | hdl
        · have hx := List.all_eq_true.mp hmid d hdm
          simp [Bool.or_eq_true] at hx
          tauto
        · rw [List.mem_singleton] at hdl
          subst hdl
          exact Or.inl hl

theorem isValidUser_parts (us : Str) (h : IsValidUser us = true) :
    ∀ p ∈ splitOnC '@' us, userSnippet p = true := by
  unfold IsValidUser at h
  split at h
  · rename_i n heq
    intro p hp
    rw [heq, List.mem_singleton] at hp
    exact hp ▸ h
  · rename_i n dm heq
    rw [Bool.and_eq_true] at h
    intro p hp
    rw [heq] at hp
    rcases List.mem_cons.mp hp with rfl | hp2
    · exact h.1
    · rw [List.mem_singleton] at hp2
      exact hp2 ▸ h.2
  · simp at h

theorem isValidUser_chars (us : Str) (h : IsValidUser us = true) :
    ∀ d ∈ us, isAlnumC d = true ∨ d = '.' ∨ d = '+' ∨ d = '-' ∨ d = '@' := by
  intro d hd
  rw [← joinSep_splitOnC '@' us] at hd
  rcases mem_joinSep _ hd with ⟨p, hp, hdp⟩ | h2
  · rcases userSnippet_chars p (isValidUser_parts us h p hp) d hdp with h3 | h3 | h3 | h3
    · exact Or.inl h3
    · exact Or.inr (Or.inl h3)
    · exact Or.inr (Or.inr (Or.inl h3))
    · exact Or.inr (Or.inr (Or.inr (Or.inl h3)))
  · exact Or.inr (Or.inr (Or.inr (Or.inr h2)))

theorem user_head_alnum (us : Str) (h : IsValidUser us = true) :
    ∃ c cs, us = c :: cs ∧ isAlnumC c = true := by
  have hj := joinSep_splitOnC '@' us
  rcases hs : splitOnC '@' us with _ | ⟨n, rest⟩
  · exact absurd hs (by simp [splitOnC])
  · have hn := isValidUser_parts us h n (by rw [hs]; exact List.mem_cons_self n rest)
    obtain ⟨c, cs0, rfl, hc⟩ := userSnippet_head n hn
    rw [hs] at hj
    cases rest with
    | nil => exact ⟨c, cs0, by rw [← hj]; rfl, hc⟩
    | cons q qs => exact ⟨c, cs0 ++ '@' :: joinSep '@' (q :: qs), by rw [← hj]; rfl, hc⟩

theorem user_ne_nil (us : Str) (h : IsValidUser us = true) : us ≠ [] := by
  obtain ⟨c, cs, rfl, _⟩ := user_head_alnum us h
  simp

theorem isValidSeries_iff (s : Str) : IsValidSeries s = true ↔ s ∈ validSeriesList := by
  simp [IsValidSeries]

theorem series_props : ∀ p ∈ validSeriesList,
    p ≠ [] ∧ p.all isLowerAZ = true ∧ go_atoi p = none := by decide

theorem name_class_not_seps (s : Str)
    (h : ∀ d ∈ s, isLowerAZ d = true ∨ isDigitC d = true ∨ d = '-') :
    '/' ∉ s ∧ '#' ∉ s ∧ '?' ∉ s := by
  refine ⟨fun hm => ?_, fun hm => ?_, fun hm => ?_⟩ <;>
    rcases h _ hm with h1 | h1 | h1 <;> exact absurd h1 (by decide)

theorem user_class_not_seps (s : Str)
    (h : ∀ d ∈ s, isAlnumC d = true ∨ d = '.' ∨ d = '+' ∨ d = '-' ∨ d = '@') :
    '/' ∉ s ∧ '#' ∉ s ∧ '?' ∉ s := by
  refine ⟨fun hm => ?_, fun hm => ?_, fun hm => ?_⟩ <;>
    rcases h _ hm with h1 | h1 | h1 | h1 | h1 <;> exact absurd h1 (by decide)

theorem lower_class_not_seps (s : Str) (h : s.all isLowerAZ = true) :
    '/' ∉ s ∧ '#' ∉ s ∧ '?' ∉ s := by
  refine ⟨fun hm => ?_, fun hm => ?_, fun hm => ?_⟩ <;>
    exact absurd (List.all_eq_true.mp h _ hm) (by decide)

theorem digit_class_not_seps (s : Str) (h : s.all isDigitC = true) :
    '/' ∉ s ∧ '#' ∉ s ∧ '?' ∉ s := by
  refine ⟨fun hm => ?_, fun hm => ?_, fun hm => ?_⟩ <;>
    exact absurd (List.all_eq_true.mp h _ hm) (by decide)

/-! ### Invariants of successful parses -/

theorem scheme_cases (sch : Str)
    (h : ¬(sch ≠ [] ∧ sch ≠ ofStr "cs" ∧ sch ≠ ofStr "local")) :
    sch = [] ∨ sch = ofStr "cs" ∨ sch = ofStr "local" := by
  by_cases h1 : sch = []
  · exact Or.inl h1
  rcases not_and_or.mp h with h2 | h2
  · exact absurd h1 (by simpa using h2)
  rcases not_and_or.mp h2 with h3 | h3
  · exact Or.inr (Or.inl (by simpa using h3))
  · exact Or.inr (Or.inr (by simpa using h3))

theorem v1Name_inv (scheme user series : Str) (parts2 : List Str) (r : URL)
    (h : v1Name scheme user series parts2 = .ok r) :
    r.Schema = scheme ∧ r.User = user ∧ r.Series = series ∧
    IsValidName r.Name = true ∧ (r.User = [] ∨ IsValidUser r.User = true) ∧
    (r.Revision = -1 ∨ (0 ≤ r.Revision ∧ r.Revision ≤ (maxInt64 : Int))) := by
  unfold v1Name at h
  split at h
  · exact absurd h (by simp)
  split at h
  · exact absurd h (by simp)
  rename_i name rev hnr
  split at h
  · exact absurd h (by simp)
  split at h
  · exact absurd h (by simp)
  rename_i huser hname
  rw [Except.ok.injEq] at h
  subst h
  refine ⟨rfl, rfl, rfl, by simpa using hname, ?_, v1NameRev_rev_cases _ _ _ hnr⟩
  rcases not_and_or.mp huser with h2 | h2
  · exact Or.inl (by simpa using h2)
  · exact Or.inr (by simpa using h2)

theorem v1AfterTilde_inv (scheme user : Str) (parts1 : List Str) (r : URL)
    (h : v1AfterTilde scheme user parts1 = .ok r) :
    r.Schema = scheme ∧ r.User = user ∧ IsValidName r.Name = true ∧
    (r.User = [] ∨ IsValidUser r.User = true) ∧
    (r.Series = [] ∨ IsValidSeries r.Series = true) ∧
    (r.Revision = -1 ∨ (0 ≤ r.Revision ∧ r.Revision ≤ (maxInt64 : Int))) := by
  unfold v1AfterTilde at h
  split at h
  · exact absurd h (by simp)
  split at h
  · exact absurd h (by simp)
  split at h
  · rename_i hnser hl2
    obtain ⟨hs, huEq, hserEq, hn, hu, hrev⟩ := v1Name_inv _ _ _ _ _ h
    refine ⟨hs, huEq, hn, hu, ?_, hrev⟩
    rcases not_and_or.mp hnser with h2 | h2
    · exact absurd hl2 h2
    · exact Or.inr (by rw [hserEq]; simpa using h2)
  · obtain ⟨hs, huEq, hserEq, hn, hu, hrev⟩ := v1Name_inv _ _ _ _ _ h
    exact ⟨hs, huEq, hn, hu, Or.inl hserEq, hrev⟩

theorem parseV1_inv (u : GoURL) (r : URL) (h : parseV1 u = .ok r) : FieldsOK r := by
  unfold parseV1 at h
  split at h
  · exact absurd h (by simp)
  rename_i hschema
  split at h
  · exact absurd h (by simp)
  split at h
  · exact absurd h (by simp)
  split at h
  · obtain ⟨hs, _, hn, hu, hser, hrev⟩ := v1AfterTilde_inv _ _ _ _ h
    exact ⟨hs ▸ scheme_cases _ hschema, hn, hu, hser, by omega⟩
  · obtain ⟨hs, _, hn, hu, hser, hrev⟩ := v1AfterTilde_inv _ _ _ _ h
    exact ⟨hs ▸ scheme_cases _ hschema, hn, hu, hser, by omega⟩

theorem v1NameRev_bounds (seg nm : Str) (rev : Int) (h : v1NameRev seg = .ok (nm, rev)) :
    -((maxInt64 : Int) + 1) ≤ rev ∧ rev ≤ (maxInt64 : Int) := by
  rcases v1NameRev_rev_cases seg nm rev h with h1 | h1 <;> omega

theorem neg_one_bounds :
    -((maxInt64 : Int) + 1) ≤ (-1 : Int) ∧ (-1 : Int) ≤ (maxInt64 : Int) := by
  constructor <;> norm_num [maxInt64]

theorem v3TakeRev_bounds (rp : List Str) :
    -((maxInt64 : Int) + 1) ≤ (v3TakeRev rp).1 ∧ (v3TakeRev rp).1 ≤ (maxInt64 : Int) := by
  unfold v3TakeRev
  split
  · exact neg_one_bounds
  · split
    · rename_i n hat
      exact ⟨(go_atoi_bounds _ _ hat).2, (go_atoi_bounds _ _ hat).1⟩
    · exact neg_one_bounds

theorem v3TakeSeries_ok (rp : List Str) :
    (v3TakeSeries rp).1 = [] ∨ IsValidSeries (v3TakeSeries rp).1 = true := by
  unfold v3TakeSeries
  split
  · exact Or.inl rfl
  · split
    · rename_i hv
      exact Or.inr hv
    · exact Or.inl rfl

theorem v3Core_inv (scheme series : Str) (rev : Int) (rp : List Str) (r : URL)
    (h : v3Core scheme series rev rp = .ok r) :
    r.Schema = scheme ∧ r.Series = series ∧ r.Revision = rev ∧
    IsValidName r.Name = true ∧ (r.User = [] ∨ IsValidUser r.User = true) := by
  unfold v3Core at h
  split at h
  · exact absurd h (by simp)
  rename_i p rest
  split at h
  · exact absurd h (by simp)
  rename_i hname
  split at h
  · rw [Except.ok.injEq] at h
    subst h
    exact ⟨rfl, rfl, rfl, by simpa using hname, Or.inl rfl⟩
  · rename_i q rest2
    split at h
    · exact absurd h (by simp)
    split at h
    · exact absurd h (by simp)
    rename_i huser _
    rw [Except.ok.injEq] at h
    subst h
    exact ⟨rfl, rfl, rfl, by simpa using hname, Or.inr (by simpa using huser)⟩

theorem parseV3_inv (u : GoURL) (r : URL) (h : parseV3 u = .ok r) : FieldsOK r := by
  unfold parseV3 at h
  split at h
  · exact absurd h (by simp)
  rename_i hschema
  split at h
  · exact absurd h (by simp)
  split at h
  · exact absurd h (by simp)
  obtain ⟨hs, hser, hrev, hn, hu⟩ := v3Core_inv _ _ _ _ _ h
  refine ⟨hs ▸ scheme_cases _ hschema, hn, hu, hser ▸ v3TakeSeries_ok _, ?_⟩
  rw [hrev]
  exact v3TakeRev_bounds _

theorem v2RevSeries_inv (parts2 : List Str) (rev : Int) (series : Str)
    (h : v2RevSeries parts2 = .ok (rev, series)) :
    (series = [] ∨ IsValidSeries series = true) ∧
    (-((maxInt64 : Int) + 1) ≤ rev ∧ rev ≤ (maxInt64 : Int)) := by
  unfold v2RevSeries at h
  split at h
  · rw [Except.ok.injEq, Prod.mk.injEq] at h
    refine ⟨Or.inl h.2.symm, ?_⟩
    rw [← h.1]
    exact neg_one_bounds
  · rename_i q rest
    split at h
    · rename_i n hat
      rw [Except.ok.injEq, Prod.mk.injEq] at h
      refine ⟨Or.inl h.2.symm, ?_⟩
      rw [← h.1]
      exact ⟨(go_atoi_bounds _ _ hat).2, (go_atoi_bounds _ _ hat).1⟩
    · split at h
      · exact absurd h (by simp)
      rename_i hser
      split at h
      · rw [Except.ok.injEq, Prod.mk.injEq] at h
        refine ⟨Or.inr (by rw [← h.2]; simpa using hser), ?_⟩
        rw [← h.1]
        exact neg_one_bounds
      · rename_i r0
        split at h
        · rename_i n hat
          rw [Except.ok.injEq, Prod.mk.injEq] at h
          refine ⟨Or.inr (by rw [← h.2]; simpa using hser), ?_⟩
          rw [← h.1]
          exact ⟨(go_atoi_bounds _ _ hat).2, (go_atoi_bounds _ _ hat).1⟩
        · exact absurd h (by simp)
      · exact absurd h (by simp)

theorem v2Assemble_inv (user name : Str) (rs : Except PErr (Int × Str)) (r : URL)
    (h : v2Assemble user name rs = .ok r) :
    ∃ rev series, rs = .ok (rev, series) ∧
      r = ⟨ofStr "cs", user, name, rev, series⟩ ∧
      IsValidName name = true ∧ (user = [] ∨ IsValidUser user = true) := by
  unfold v2Assemble at h
  split at h
  · exact absurd h (by simp)
  rename_i rev series
  split at h
  · exact absurd h (by simp)
  rename_i huser
  split at h
  · exact absurd h (by simp)
  rename_i hname
  rw [Except.ok.injEq] at h
  refine ⟨rev, series, rfl, h.symm, by simpa using hname, ?_⟩
  rcases not_and_or.mp huser with h2 | h2
  · exact Or.inl (by simpa using h2)
  · exact Or.inr (by simpa using h2)

theorem parseV2_inv (u : GoURL) (r : URL) (h : parseV2 u = .ok r) : FieldsOK r := by
  unfold parseV2 at h
  split at h
  · exact absurd h (by simp)
  split at h
  · obtain ⟨rev, series, hrs, rfl, hn, hu⟩ := v2Assemble_inv _ _ _ _ h
    obtain ⟨hser, hrev⟩ := v2RevSeries_inv _ _ _ hrs
    exact ⟨Or.inr (Or.inl rfl), hn, hu, hser, hrev⟩
  · obtain ⟨rev, series, hrs, rfl, hn, hu⟩ := v2Assemble_inv _ _ _ _ h
    obtain ⟨hser, hrev⟩ := v2RevSeries_inv _ _ _ hrs
    exact ⟨Or.inr (Or.inl rfl), hn, hu, hser, hrev⟩

theorem parseNonWebURL_inv (u : GoURL) (r : URL) (h : parseNonWebURL u = .ok r) :
    FieldsOK r := by
  unfold parseNonWebURL at h
  split at h
  · exact parseV1_inv _ _ h
  · split at h
    · rename_i r2 h3
      rw [Except.ok.injEq] at h
      exact h ▸ parseV3_inv _ _ h3
    · exact parseV1_inv _ _ h

theorem parseURL_inv (s : Str) (r : URL) (h : ParseURL s = .ok r) :
    (r.Schema = ofStr "cs" ∨ r.Schema = ofStr "local") ∧
    IsValidName r.Name = true ∧
    (r.User = [] ∨ IsValidUser r.User = true) ∧
    (r.Series = [] ∨ IsValidSeries r.Series = true) ∧
    (-((maxInt64 : Int) + 1) ≤ r.Revision ∧ r.Revision ≤ (maxInt64 : Int)) := by
  unfold ParseURL at h
  split at h
  · exact absurd h (by simp)
  rename_i u hu
  split at h
  · exact absurd h (by simp)
  split at h
  · exact absurd h (by simp)
  rename_i c hc
  have hok : FieldsOK c := by
    split at hc
    · exact parseNonWebURL_inv _ _ hc
    · split at hc
      · exact parseV2_inv _ _ hc
      · exact parseNonWebURL_inv _ _ hc
  rw [Except.ok.injEq] at h
  subst h
  obtain ⟨hsch, hn, husr, hser, hrev⟩ := hok
  split
  · rename_i hcs
    exact ⟨Or.inl rfl, hn, husr, hser, hrev⟩
  · rename_i hcs
    rcases hsch with h1 | h1 | h1
    · exact absurd h1 hcs
    · exact ⟨Or.inl h1, hn, husr, hser, hrev⟩
    · exact ⟨Or.inr h1, hn, husr, hser, hrev⟩

/-! ### Further helper lemmas for the claims -/

theorem part0_mem (l : List Str) (h : l ≠ []) : part0 l ∈ l := by
  cases l with
  | nil => exact absurd rfl h
  | cons a as => simp [part0]

theorem v1Name_panic (scheme user series : Str) (parts2 : List Str)
    (h : v1Name scheme user series parts2 = .error .panicStop) :
    parts2 ≠ [] ∧ v1NameRev (part0 parts2) = .error .panicStop := by
  unfold v1Name at h
  split at h
  · simp at h
  rename_i hlen
  refine ⟨by intro hnil; rw [hnil] at hlen; simp at hlen, ?_⟩
  split at h
  · rename_i e heq
    simp at h
    rw [heq, h]
  · split at h
    · simp at h
    split at h
    · simp at h
    · simp at h

theorem v1AfterTilde_panic (scheme user : Str) (parts1 : List Str)
    (h : v1AfterTilde scheme user parts1 = .error .panicStop) :
    ∃ seg, seg ∈ parts1 ∧ v1NameRev seg = .error .panicStop := by
  unfold v1AfterTilde at h
  split at h
  · simp at h
  split at h
  · simp at h
  split at h
  · obtain ⟨hne, hp⟩ := v1Name_panic _ _ _ _ h
    exact ⟨_, List.mem_of_mem_tail (part0_mem _ hne), hp⟩
  · obtain ⟨hne, hp⟩ := v1Name_panic _ _ _ _ h
    exact ⟨_, part0_mem _ hne, hp⟩

theorem v2RevSeries_no_unrec (parts2 : List Str) :
    v2RevSeries parts2 ≠ .error .unrecognizedParts := by
  intro h
  unfold v2RevSeries at h
  split at h
  · simp at h
  split at h
  · simp at h
  split at h
  · simp at h
  split at h
  · simp at h
  · split at h
    · simp at h
    · simp at h
  · simp at h

theorem v2Assemble_no_unrec (user name : Str) (rs : Except PErr (Int × Str))
    (hrs : rs ≠ .error .unrecognizedParts) :
    v2Assemble user name rs ≠ .error .unrecognizedParts := by
  intro h
  unfold v2Assemble at h
  split at h
  · simp at h
    exact hrs (by rw [h])
  · split at h
    · simp at h
    split at h
    · simp at h
    · simp at h

theorem quoteByte_ne_nil (b : Nat) : quoteByte b ≠ [] := by
  unfold quoteByte
  split <;> simp

theorem hexDigit_inj (m n : Nat) (hm : m < 16) (hn : n < 16)
    (h : hexDigit m = hexDigit n) : m = n := by
  unfold hexDigit at h
  split at h <;> split at h <;> omega

theorem safe_ne_95 (b : Nat) (h : isSafeByte b = true) : b ≠ 95 := by
  intro hb
  subst hb
  simp [isSafeByte] at h

theorem quote_safe_id (s : List Nat) (h : s.all isSafeByte = true) : Quote s = s := by
  induction s with
  | nil => rfl
  | cons b t ih =>
    rw [List.all_cons, Bool.and_eq_true] at h
    rw [Quote, quoteByte, if_pos h.1, ih h.2]
    rfl

theorem quote_inj (s : List Nat) : ∀ t : List Nat, (∀ b ∈ s, b < 256) →
    (∀ b ∈ t, b < 256) → Quote s = Quote t → s = t := by
  induction s with
  | nil =>
    intro t _ _ h
    cases t with
    | nil => rfl
    | cons b t2 =>
      rw [Quote, Quote] at h
      exact absurd (List.append_eq_nil.mp h.symm).1 (quoteByte_ne_nil b)
  | cons a s2 ih =>
    intro t hs ht h
    cases t with
    | nil =>
      rw [Quote, Quote] at h
      exact absurd (List.append_eq_nil.mp h).1 (quoteByte_ne_nil a)
    | cons b t2 =>
      by_cases ha : isSafeByte a = true <;> by_cases hb : isSafeByte b = true
      · rw [Quote, Quote, quoteByte, if_pos ha, quoteByte, if_pos hb] at h
        simp at h
        rw [h.1, ih t2 (fun x hx => hs x (by simp [hx])) (fun x hx => ht x (by simp [hx])) h.2]
      · rw [Quote, Quote, quoteByte, if_pos ha, quoteByte, if_neg hb] at h
        simp at h
        exact absurd h.1 (safe_ne_95 a ha)
      · rw [Quote, Quote, quoteByte, if_neg ha, quoteByte, if_pos hb] at h
        simp at h
        exact absurd h.1.symm (safe_ne_95 b hb)
      · rw [Quote, Quote, quoteByte, if_neg ha, quoteByte, if_neg hb] at h
        simp at h
        have ha256 := hs a (by simp)
        have hb256 := ht b (by simp)
        have h1 := hexDigit_inj _ _ (by omega) (by omega) h.1
        have h2 := hexDigit_inj _ _ (by omega) (by omega) h.2.1
        have hab : a = b := by omega
        rw [hab, ih t2 (fun x hx => hs x (by simp [hx])) (fun x hx => ht x (by simp [hx])) h.2.2]

/-! ### Reparsing the canonical rendering -/

theorem getScheme_cs (rest : Str) :
    getScheme (ofStr "cs" ++ ':' :: rest) = some (ofStr "cs", rest) := rfl

theorem getScheme_local (rest : Str) :
    getScheme (ofStr "local" ++ ':' :: rest) = some (ofStr "local", rest) := rfl

theorem goURLQuery_no_q (rest : Str) (hq : '?' ∉ rest) : goURLQuery rest = (rest, []) := by
  unfold goURLQuery
  rw [if_neg, cutAt_no_mem _ _ hq]
  rintro ⟨h1, h2⟩
  rw [List.count_eq_zero.mpr hq] at h2
  exact absurd h2 (by decide)

theorem goURLRest_opq (sch rest : Str) (hsch : sch ≠ [])
    (hslash : rest.head? ≠ some '/') :
    goURLRest sch rest [] [] = some ⟨sch, rest, [], [], [], false⟩ := by
  unfold goURLRest
  rw [if_pos hslash, if_pos hsch]

theorem goURLParse_opq (sch rest : Str)
    (hsch : sch = ofStr "cs" ∨ sch = ofStr "local")
    (hh : '#' ∉ rest) (hq : '?' ∉ rest)
    (hslash : rest.head? ≠ some '/') :
    goURLParse (sch ++ ':' :: rest) = some ⟨sch, rest, [], [], [], false⟩ := by
  have hcut : cutAt '#' (sch ++ ':' :: rest) = (sch ++ ':' :: rest, []) := by
    apply cutAt_no_mem
    intro hm
    rcases List.mem_append.mp hm with hm | hm
    · rcases hsch with rfl | rfl <;> revert hm <;> decide
    · rcases List.mem_cons.mp hm with hm | hm
      · exact absurd hm (by decide)
      · exact hh hm
  unfold goURLParse
  rw [hcut]
  rcases hsch with rfl | rfl
  · rw [getScheme_cs]
    show goURLRest (toLowerStr (ofStr "cs")) (goURLQuery rest).1 [] (goURLQuery rest).2 =
      some ⟨ofStr "cs", rest, [], [], [], false⟩
    rw [goURLQuery_no_q rest hq]
    exact goURLRest_opq _ _ (by decide) hslash
  · rw [getScheme_local]
    show goURLRest (toLowerStr (ofStr "local")) (goURLQuery rest).1 [] (goURLQuery rest).2 =
      some ⟨ofStr "local", rest, [], [], [], false⟩
    rw [goURLQuery_no_q rest hq]
    exact goURLRest_opq _ _ (by decide) hslash

theorem ParseURL_opq (sch rest : Str) (r : URL)
    (hsch : sch = ofStr "cs" ∨ sch = ofStr "local")
    (hne : rest ≠ []) (hh : '#' ∉ rest) (hq : '?' ∉ rest)
    (hslash : rest.head? ≠ some '/')
    (hp : parseNonWebURL ⟨sch, rest, rest, [], [], false⟩ = .ok r)
    (hrs : r.Schema ≠ []) :
    ParseURL (sch ++ ':' :: rest) = .ok r := by
  unfold ParseURL
  rw [goURLParse_opq sch rest hsch hh hq hslash]
  show (if ([] : Str) ≠ [] ∨ ([] : Str) ≠ [] ∨ (false : Bool) = true then
      Except.error PErr.unrecognizedParts
    else
      match (if rest ≠ [] then
          parseNonWebURL { GoURL.mk sch rest [] [] [] false with path := rest }
        else if sch = ofStr "http" ∨ sch = ofStr "https" then
          parseV2 ⟨sch, rest, [], [], [], false⟩
        else parseNonWebURL ⟨sch, rest, [], [], [], false⟩) with
      | .error e => Except.error e
      | .ok c => .ok (if c.Schema = [] then { c with Schema := ofStr "cs" } else c)) =
    .ok r
  rw [if_neg (by simp), if_pos hne]
  show (match parseNonWebURL ⟨sch, rest, rest, [], [], false⟩ with
      | .error e => Except.error e
      | .ok c => .ok (if c.Schema = [] then { c with Schema := ofStr "cs" } else c)) =
    .ok r
  rw [hp]
  show Except.ok (if r.Schema = [] then { r with Schema := ofStr "cs" } else r) = .ok r
  rw [if_neg hrs]

theorem joinSep_head (c : Char) (p : Str) (ps : List Str) (h : p ≠ []) :
    (joinSep c (p :: ps)).head? = p.head? := by
  cases ps with
  | nil => rfl
  | cons q qs =>
    show (p ++ c :: joinSep c (q :: qs)).head? = p.head?
    cases p with
    | nil => exact absurd rfl h
    | cons a as => rfl

theorem joinSep_no_char (c d : Char) (parts : List Str) (hne : d ≠ c)
    (h : ∀ p ∈ parts, d ∉ p) : d ∉ joinSep c parts := by
  intro hm
  rcases mem_joinSep parts hm with ⟨p, hp, hdp⟩ | h2
  · exact h p hp hdp
  · exact hne h2

theorem lower_not_tilde {c : Char} (h : isLowerAZ c = true) : ¬ c = '~' := by
  intro hc
  subst hc
  simp [isLowerAZ] at h

theorem alnum_not_tilde {c : Char} (h : isAlnumC c = true) : ¬ c = '~' := by
  intro hc
  subst hc
  simp [isAlnumC, isAlphaC, isLowerAZ, isUpperAZ, isDigitC] at h

theorem v3TakeRev_some (p : Str) (rest : List Str) (n : Int) (h : go_atoi p = some n) :
    v3TakeRev (p :: rest) = (n, rest) := by
  simp [v3TakeRev, h]

theorem v3TakeRev_none (p : Str) (rest : List Str) (h : go_atoi p = none) :
    v3TakeRev (p :: rest) = (-1, p :: rest) := by
  simp [v3TakeRev, h]

theorem v3TakeSeries_yes (p : Str) (rest : List Str) (h : IsValidSeries p = true) :
    v3TakeSeries (p :: rest) = (p, rest) := by
  simp [v3TakeSeries, h]

theorem v3TakeSeries_no (p : Str) (rest : List Str) (h : IsValidSeries p = false) :
    v3TakeSeries (p :: rest) = ([], p :: rest) := by
  simp [v3TakeSeries, h]

theorem v3Core_one (sch series : Str) (rev : Int) (name : Str)
    (hname : IsValidName name = true) :
    v3Core sch series rev [name] = .ok ⟨sch, [], name, rev, series⟩ := by
  simp [v3Core, hname]

theorem v3Core_two (sch series : Str) (rev : Int) (name q : Str)
    (hname : IsValidName name = true) (hq : IsValidUser q = true) :
    v3Core sch series rev [name, q] = .ok ⟨sch, q, name, rev, series⟩ := by
  simp [v3Core, hname, hq]

theorem parseV3_run (u : GoURL) (parts : List Str)
    (hsp : splitOnC '/' u.path = parts)
    (hsch : u.scheme = ofStr "cs" ∨ u.scheme = ofStr "local")
    (hlen4 : parts.length ≤ 4) :
    parseV3 u = v3Core u.scheme
      (v3TakeSeries (v3TakeRev parts.reverse).2).1
      (v3TakeRev parts.reverse).1
      (v3TakeSeries (v3TakeRev parts.reverse).2).2 := by
  have hne : parts ≠ [] := by
    rw [← hsp]
    simp [splitOnC]
  have hpos : 0 < parts.length := List.length_pos.mpr hne
  unfold parseV3
  rw [hsp]
  rw [if_neg (by rcases hsch with h | h <;> simp [h]), if_neg (by omega), if_neg (by omega)]

theorem parseV1_one (u : GoURL) (name : Str)
    (hsp : splitOnC '/' u.path = [name])
    (hsch : u.scheme = ofStr "cs" ∨ u.scheme = ofStr "local")
    (hname : IsValidName name = true) :
    parseV1 u = .ok ⟨u.scheme, [], name, -1, []⟩ := by
  obtain ⟨c, cs, hn, hc⟩ := name_head name hname
  have htl : (part0 [name]).head? ≠ some '~' := by
    rw [show part0 [name] = name from rfl, hn]
    simp
    exact fun hh => lower_not_tilde hc hh
  unfold parseV1
  rw [hsp]
  rw [if_neg (by rcases hsch with h | h <;> simp [h])]
  rw [if_neg (by simp)]
  rw [if_neg (by rintro ⟨h1, _⟩; exact htl h1)]
  rw [if_neg htl]
  unfold v1AfterTilde
  rw [if_neg (by simp), if_neg (by simp), if_neg (by simp)]
  unfold v1Name
  rw [if_neg (by simp)]
  rw [show part0 ([name] : List Str) = name from rfl]
  rw [v1NameRev_of_valid name hname]
  show (if ([] : Str) ≠ [] ∧ ¬ IsValidUser [] = true then Except.error PErr.invalidUser
    else if ¬ IsValidName name = true then Except.error PErr.invalidName
    else Except.ok (URL.mk u.scheme [] name (-1) [])) =
    Except.ok (URL.mk u.scheme [] name (-1) [])
  rw [if_neg (by simp), if_neg (by simp [hname])]

theorem nonweb_v3_ok (u : GoURL) (parts : List Str) (r : URL)
    (hsp : splitOnC '/' u.path = parts)
    (hguard : IsValidSeries (part0 parts) = false)
    (hsch : u.scheme = ofStr "cs" ∨ u.scheme = ofStr "local")
    (hlen4 : parts.length ≤ 4)
    (hv3 : v3Core u.scheme (v3TakeSeries (v3TakeRev parts.reverse).2).1
      (v3TakeRev parts.reverse).1 (v3TakeSeries (v3TakeRev parts.reverse).2).2 = .ok r) :
    parseNonWebURL u = .ok r := by
  unfold parseNonWebURL
  rw [hsp]
  rw [if_neg (by simp [hguard])]
  rw [parseV3_run u parts hsp hsch hlen4, hv3]

theorem reparse_outer (sch : Str) (parts : List Str) (r : URL) (c0 : Char) (rest0 : Str)
    (hsch : sch = ofStr "cs" ∨ sch = ofStr "local")
    (hparts_ne : parts ≠ [])
    (hfirst : part0 parts = c0 :: rest0)
    (hc0 : ¬ c0 = '/')
    (hnoh : ∀ p ∈ parts, '#' ∉ p)
    (hnoq : ∀ p ∈ parts, '?' ∉ p)
    (hnw : parseNonWebURL ⟨sch, joinSep '/' parts, joinSep '/' parts, [], [], false⟩ = .ok r)
    (hrs : r.Schema ≠ []) :
    ParseURL (sch ++ ':' :: joinSep '/' parts) = .ok r := by
  have hhead : (joinSep '/' parts).head? = some c0 := by
    rcases hps : parts with _ | ⟨p, ps⟩
    · exact absurd hps hparts_ne
    · rw [hps] at hfirst
      have hp0 : p = c0 :: rest0 := hfirst
      rw [joinSep_head '/' p ps (by rw [hp0]; simp), hp0]
      rfl
  apply ParseURL_opq sch (joinSep '/' parts) r hsch
  · intro h0
    rw [h0] at hhead
    simp at hhead
  · exact joinSep_no_char '/' '#' parts (by decide) hnoh
  · exact joinSep_no_char '/' '?' parts (by decide) hnoq
  · rw [hhead]
    simp
    exact hc0
  · exact hnw
  · exact hrs

theorem nonweb_guard (u : GoURL)
    (hg : IsValidSeries (part0 (splitOnC '/' u.path)) = true) :
    parseNonWebURL u = parseV1 u := by
  unfold parseNonWebURL
  rw [if_pos hg]

/-- Core of the round-trip theorem: a URL value whose fields satisfy the
parser invariants reparses to itself from its canonical rendering, provided
its revision is unset or non-negative, its user is not a valid series name,
and a name that doubles as a series name is shielded (no user: nothing else
set, so the compact grammar reads it back as a bare name; user present: a
series must also be present so the slash grammar does not consume the name as
a series). -/
theorem reparse_core (sch user name series : Str) (rev : Int)
    (hsch : sch = ofStr "cs" ∨ sch = ofStr "local")
    (hname : IsValidName name = true)
    (huser : user = [] ∨ IsValidUser user = true)
    (hseries : series = [] ∨ IsValidSeries series = true)
    (hrev : rev = -1 ∨ (0 ≤ rev ∧ rev ≤ (maxInt64 : Int)))
    (hus : IsValidSeries user = false)
    (hns : IsValidSeries name = true →
      (user = [] → series = [] ∧ rev = -1) ∧ (user ≠ [] → series ≠ [])) :
    ParseURL (urlString ⟨sch, user, name, rev, series⟩) =
      .ok ⟨sch, user, name, rev, series⟩ := by
  obtain ⟨nc, ncs, hnEq, hncLower⟩ := name_head name hname
  have hnameSeps := name_class_not_seps name (isValidName_chars name hname)
  have hschNe : sch ≠ [] := by rcases hsch with rfl | rfl <;> decide
  have hncSlash : ¬ nc = '/' := by
    intro hh
    rw [hh] at hncLower
    exact absurd hncLower (by decide)
  rcases huser with hu0 | huv
  · subst hu0
    by_cases hvs : IsValidSeries name = true
    · -- the name is itself a series name: everything else is unset and the
      -- compact grammar reads the single segment back as the name
      obtain ⟨hser0, hrev0⟩ := (hns hvs).1 rfl
      subst hser0
      subst hrev0
      have hstr : urlString ⟨sch, [], name, -1, []⟩ =
          sch ++ ':' :: joinSep '/' [name] := by
        simp [urlString]
      rw [hstr]
      have hsplit : splitOnC '/' name = [name] := splitOnC_no_sep '/' name hnameSeps.1
      have hnw : parseNonWebURL ⟨sch, name, name, [], [], false⟩ =
          .ok ⟨sch, [], name, -1, []⟩ := by
        rw [nonweb_guard _ (by
          rw [show (GoURL.mk sch name name [] [] false).path = name from rfl, hsplit]
          exact hvs)]
        exact parseV1_one _ name hsplit hsch hname
      exact reparse_outer sch [name] _ nc ncs hsch (by simp)
        (by rw [show part0 [name] = name from rfl]; exact hnEq) hncSlash
        (by intro p hp; rw [List.mem_singleton] at hp; subst hp; exact hnameSeps.2.1)
        (by intro p hp; rw [List.mem_singleton] at hp; subst hp; exact hnameSeps.2.2)
        hnw hschNe
    · -- plain slash-grammar reparse with no user
      have hvs2 : IsValidSeries name = false := by simpa using hvs
      rcases hseries with hs0 | hsv
      · subst hs0
        rcases hrev with hr0 | hrpos
        · -- parts = [name]
          subst hr0
          have hstr : urlString ⟨sch, [], name, -1, []⟩ =
              sch ++ ':' :: joinSep '/' [name] := by
            simp [urlString]
          rw [hstr]
          have hsplit : splitOnC '/' (joinSep '/' [name]) = [name] :=
            splitOnC_joinSep '/' [name] (by simp)
              (by intro p hp; rw [List.mem_singleton] at hp; subst hp; exact hnameSeps.1)
          have hnw : parseNonWebURL
              ⟨sch, joinSep '/' [name], joinSep '/' [name], [], [], false⟩ =
              .ok ⟨sch, [], name, -1, []⟩ := by
            refine nonweb_v3_ok _ [name] _ hsplit hvs2 hsch (by simp) ?_
            simp [v3TakeRev, v3TakeSeries, v3Core, go_atoi_name name hname, hvs2, hname]
          exact reparse_outer sch [name] _ nc ncs hsch (by simp)
            (by rw [show part0 [name] = name from rfl]; exact hnEq) hncSlash
            (by intro p hp; rw [List.mem_singleton] at hp; subst hp; exact hnameSeps.2.1)
            (by intro p hp; rw [List.mem_singleton] at hp; subst hp; exact hnameSeps.2.2)
            hnw hschNe
        · -- parts = [name, rev digits]
          have hatR : go_atoi (natToDigits rev.toNat) = some rev := by
            rw [go_atoi_natToDigits rev.toNat (by omega)]
            congr 1
            omega
          have hrevNe := natToDigits_ne_nil rev.toNat
          have hrevDig := natToDigits_all_digits rev.toNat
          have hrevSeps := digit_class_not_seps _ hrevDig
          have hstr : urlString ⟨sch, [], name, rev, []⟩ =
              sch ++ ':' :: joinSep '/' [name, natToDigits rev.toNat] := by
            simp [urlString, hrpos.1]
          rw [hstr]
          have hsplit : splitOnC '/' (joinSep '/' [name, natToDigits rev.toNat]) =
              [name, natToDigits rev.toNat] :=
            splitOnC_joinSep '/' _ (by simp)
              (by
                intro p hp
                simp at hp
                rcases hp with rfl | rfl
                · exact hnameSeps.1
                · exact hrevSeps.1)
          have hnw : parseNonWebURL
              ⟨sch, joinSep '/' [name, natToDigits rev.toNat],
                joinSep '/' [name, natToDigits rev.toNat], [], [], false⟩ =
              .ok ⟨sch, [], name, rev, []⟩ := by
            refine nonweb_v3_ok _ [name, natToDigits rev.toNat] _ hsplit hvs2 hsch
              (by simp) ?_
            simp [v3TakeRev, v3TakeSeries, v3Core, hatR, hvs2, hname]
          exact reparse_outer sch [name, natToDigits rev.toNat] _ nc ncs hsch (by simp)
            (by rw [show part0 [name, natToDigits rev.toNat] = name from rfl]; exact hnEq)
            hncSlash
            (by
              intro p hp
              simp at hp
              rcases hp with rfl | rfl
              · exact hnameSeps.2.1
              · exact hrevSeps.2.1)
            (by
              intro p hp
              simp at hp
              rcases hp with rfl | rfl
              · exact hnameSeps.2.2
              · exact hrevSeps.2.2)
            hnw hschNe
      · -- series present
        have hserMem := (isValidSeries_iff series).mp hsv
        obtain ⟨hserNe, hserLower, hserAtoi⟩ := series_props series hserMem
        have hserSeps := lower_class_not_seps series hserLower
        rcases hrev with hr0 | hrpos
        · -- parts = [name, series]
          subst hr0
          have hstr : urlString ⟨sch, [], name, -1, series⟩ =
              sch ++ ':' :: joinSep '/' [name, series] := by
            simp [urlString, hserNe]
          rw [hstr]
          have hsplit : splitOnC '/' (joinSep '/' [name, series]) = [name, series] :=
            splitOnC_joinSep '/' _ (by simp)
              (by
                intro p hp
                simp at hp
                rcases hp with rfl | rfl
                · exact hnameSeps.1
                · exact hserSeps.1)
          have hnw : parseNonWebURL
              ⟨sch, joinSep '/' [name, series], joinSep '/' [name, series], [], [],
                false⟩ = .ok ⟨sch, [], name, -1, series⟩ := by
            refine nonweb_v3_ok _ [name, series] _ hsplit hvs2 hsch (by simp) ?_
            simp [v3TakeRev, v3TakeSeries, v3Core, hserAtoi, hsv, hname]
          exact reparse_outer sch [name, series] _ nc ncs hsch (by simp)
            (by rw [show part0 [name, series] = name from rfl]; exact hnEq) hncSlash
            (by
              intro p hp
              simp at hp
              rcases hp with rfl | rfl
              · exact hnameSeps.2.1
              · exact hserSeps.2.1)
            (by
              intro p hp
              simp at hp
              rcases hp with rfl | rfl
              · exact hnameSeps.2.2
              · exact hserSeps.2.2)
            hnw hschNe
        · -- parts = [name, series, rev digits]
          have hatR : go_atoi (natToDigits rev.toNat) = some rev := by
            rw [go_atoi_natToDigits rev.toNat (by omega)]
            congr 1
            omega
          have hrevNe := natToDigits_ne_nil rev.toNat
          have hrevDig := natToDigits_all_digits rev.toNat
          have hrevSeps := digit_class_not_seps _ hrevDig
          have hstr : urlString ⟨sch, [], name, rev, series⟩ =
              sch ++ ':' :: joinSep '/' [name, series, natToDigits rev.toNat] := by
            simp [urlString, hserNe, hrpos.1]
          rw [hstr]
          have hsplit : splitOnC '/'
              (joinSep '/' [name, series, natToDigits rev.toNat]) =
              [name, series, natToDigits rev.toNat] :=
            splitOnC_joinSep '/' _ (by simp)
              (by
                intro p hp
                simp at hp
                rcases hp with rfl | rfl | rfl
                · exact hnameSeps.1
                · exact hserSeps.1
                · exact hrevSeps.1)
          have hnw : parseNonWebURL
              ⟨sch, joinSep '/' [name, series, natToDigits rev.toNat],
                joinSep '/' [name, series, natToDigits rev.toNat], [], [], false⟩ =
              .ok ⟨sch, [], name, rev, series⟩ := by
            refine nonweb_v3_ok _ [name, series, natToDigits rev.toNat] _ hsplit hvs2
              hsch (by simp) ?_
            simp [v3TakeRev, v3TakeSeries, v3Core, hatR, hserAtoi, hsv, hname]
          exact reparse_outer sch [name, series, natToDigits rev.toNat] _ nc ncs hsch
            (by simp)
            (by rw [show part0 [name, series, natToDigits rev.toNat] = name from rfl]
                exact hnEq)
            hncSlash
            (by
              intro p hp
              simp at hp
              rcases hp with rfl | rfl | rfl
              · exact hnameSeps.2.1
              · exact hserSeps.2.1
              · exact hrevSeps.2.1)
            (by
              intro p hp
              simp at hp
              rcases hp with rfl | rfl | rfl
              · exact hnameSeps.2.2
              · exact hserSeps.2.2
              · exact hrevSeps.2.2)
            hnw hschNe
  · have huNe : user ≠ [] := user_ne_nil user huv
    obtain ⟨uc, ucs, huEq, hucAl⟩ := user_head_alnum user huv
    have huSeps := user_class_not_seps user (isValidUser_chars user huv)
    have hucSlash : ¬ uc = '/' := by
      intro hh
      rw [hh] at hucAl
      exact absurd hucAl (by decide)
    rcases hseries with hs0 | hsv
    · have hvs2 : IsValidSeries name = false := by
        by_cases hvs : IsValidSeries name = true
        · exact absurd hs0 ((hns hvs).2 huNe)
        · simpa using hvs
      subst hs0
      rcases hrev with hr0 | hrpos
      · -- parts = [user, name]
        subst hr0
        have hstr : urlString ⟨sch, user, name, -1, []⟩ =
            sch ++ ':' :: joinSep '/' [user, name] := by
          simp [urlString, huNe]
        rw [hstr]
        have hsplit : splitOnC '/' (joinSep '/' [user, name]) = [user, name] :=
          splitOnC_joinSep '/' _ (by simp)
            (by
              intro p hp
              simp at hp
              rcases hp with rfl | rfl
              · exact huSeps.1
              · exact hnameSeps.1)
        have hnw : parseNonWebURL
            ⟨sch, joinSep '/' [user, name], joinSep '/' [user, name], [], [], false⟩ =
            .ok ⟨sch, user, name, -1, []⟩ := by
          refine nonweb_v3_ok _ [user, name] _ hsplit hus hsch (by simp) ?_
          simp [v3TakeRev, v3TakeSeries, v3Core, go_atoi_name name hname, hvs2, hname,
            huv]
        exact reparse_outer sch [user, name] _ uc ucs hsch (by simp)
          (by rw [show part0 [user, name] = user from rfl]; exact huEq) hucSlash
          (by
            intro p hp
            simp at hp
            rcases hp with rfl | rfl
            · exact huSeps.2.1
            · exact hnameSeps.2.1)
          (by
            intro p hp
            simp at hp
            rcases hp with rfl | rfl
            · exact huSeps.2.2
            · exact hnameSeps.2.2)
          hnw hschNe
      · -- parts = [user, name, rev digits]
        have hatR : go_atoi (natToDigits rev.toNat) = some rev := by
          rw [go_atoi_natToDigits rev.toNat (by omega)]
          congr 1
          omega
        have hrevNe := natToDigits_ne_nil rev.toNat
        have hrevDig := natToDigits_all_digits rev.toNat
        have hrevSeps := digit_class_not_seps _ hrevDig
        have hstr : urlString ⟨sch, user, name, rev, []⟩ =
            sch ++ ':' :: joinSep '/' [user, name, natToDigits rev.toNat] := by
          simp [urlString, huNe, hrpos.1]
        rw [hstr]
        have hsplit : splitOnC '/' (joinSep '/' [user, name, natToDigits rev.toNat]) =
            [user, name, natToDigits rev.toNat] :=
          splitOnC_joinSep '/' _ (by simp)
            (by
              intro p hp
              simp at hp
              rcases hp with rfl | rfl | rfl
              · exact huSeps.1
              · exact hnameSeps.1
              · exact hrevSeps.1)
        have hnw : parseNonWebURL
            ⟨sch, joinSep '/' [user, name, natToDigits rev.toNat],
              joinSep '/' [user, name, natToDigits rev.toNat], [], [], false⟩ =
            .ok ⟨sch, user, name, rev, []⟩ := by
          refine nonweb_v3_ok _ [user, name, natToDigits rev.toNat] _ hsplit hus hsch
            (by simp) ?_
          simp [v3TakeRev, v3TakeSeries, v3Core, hatR, hvs2, hname, huv]
        exact reparse_outer sch [user, name, natToDigits rev.toNat] _ uc ucs hsch
          (by simp)
          (by rw [show part0 [user, name, natToDigits rev.toNat] = user from rfl]
              exact huEq)
          hucSlash
          (by
            intro p hp
            simp at hp
            rcases hp with rfl | rfl | rfl
            · exact huSeps.2.1
            · exact hnameSeps.2.1
            · exact hrevSeps.2.1)
          (by
            intro p hp
            simp at hp
            rcases hp with rfl | rfl | rfl
            · exact huSeps.2.2
            · exact hnameSeps.2.2
            · exact hrevSeps.2.2)
          hnw hschNe
    · have hserMem := (isValidSeries_iff series).mp hsv
      obtain ⟨hserNe, hserLower, hserAtoi⟩ := series_props series hserMem
      have hserSeps := lower_class_not_seps series hserLower
      rcases hrev with hr0 | hrpos
      · -- parts = [user, name, series]
        subst hr0
        have hstr : urlString ⟨sch, user, name, -1, series⟩ =
            sch ++ ':' :: joinSep '/' [user, name, series] := by
          simp [urlString, huNe, hserNe]
        rw [hstr]
        have hsplit : splitOnC '/' (joinSep '/' [user, name, series]) =
            [user, name, series] :=
          splitOnC_joinSep '/' _ (by simp)
            (by
              intro p hp
              simp at hp
              rcases hp with rfl | rfl | rfl
              · exact huSeps.1
              · exact hnameSeps.1
              · exact hserSeps.1)
        have hnw : parseNonWebURL
            ⟨sch, joinSep '/' [user, name, series], joinSep '/' [user, name, series],
              [], [], false⟩ = .ok ⟨sch, user, name, -1, series⟩ := by
          refine nonweb_v3_ok _ [user, name, series] _ hsplit hus hsch (by simp) ?_
          simp [v3TakeRev, v3TakeSeries, v3Core, hserAtoi, hsv, hname, huv]
        exact reparse_outer sch [user, name, series] _ uc ucs hsch (by simp)
          (by rw [show part0 [user, name, series] = user from rfl]; exact huEq)
          hucSlash
          (by
            intro p hp
            simp at hp
            rcases hp with rfl | rfl | rfl
            · exact huSeps.2.1
            · exact hnameSeps.2.1
            · exact hserSeps.2.1)
          (by
            intro p hp
            simp at hp
            rcases hp with rfl | rfl | rfl
            · exact huSeps.2.2
            · exact hnameSeps.2.2
            · exact hserSeps.2.2)
          hnw hschNe
      · -- parts = [user, name, series, rev digits]
        have hatR : go_atoi (natToDigits rev.toNat) = some rev := by
          rw [go_atoi_natToDigits rev.toNat (by omega)]
          congr 1
          omega
        have hrevNe := natToDigits_ne_nil rev.toNat
        have hrevDig := natToDigits_all_digits rev.toNat
        have hrevSeps := digit_class_not_seps _ hrevDig
        have hstr : urlString ⟨sch, user, name, rev, series⟩ =
            sch ++ ':' :: joinSep '/' [user, name, series, natToDigits rev.toNat] := by
          simp [urlString, huNe, hserNe, hrpos.1]
        rw [hstr]
        have hsplit : splitOnC '/'
            (joinSep '/' [user, name, series, natToDigits rev.toNat]) =
            [user, name, series, natToDigits rev.toNat] :=
          splitOnC_joinSep '/' _ (by simp)
            (by
              intro p hp
              simp at hp
              rcases hp with rfl | rfl | rfl | rfl
              · exact huSeps.1
              · exact hnameSeps.1
              · exact hserSeps.1
              · exact hrevSeps.1)
        have hnw : parseNonWebURL
            ⟨sch, joinSep '/' [user, name, series, natToDigits rev.toNat],
              joinSep '/' [user, name, series, natToDigits rev.toNat], [], [], false⟩ =
            .ok ⟨sch, user, name, rev, series⟩ := by
          refine nonweb_v3_ok _ [user, name, series, natToDigits rev.toNat] _ hsplit
            hus hsch (by simp) ?_
          simp [v3TakeRev, v3TakeSeries, v3Core, hatR, hserAtoi, hsv, hname, huv]
        exact reparse_outer sch [user, name, series, natToDigits rev.toNat] _ uc ucs
          hsch (by simp)
          (by rw [show part0 [user, name, series, natToDigits rev.toNat] = user from rfl]
              exact huEq)
          hucSlash
          (by
            intro p hp
            simp at hp
            rcases hp with rfl | rfl | rfl | rfl
            · exact huSeps.2.1
            · exact hnameSeps.2.1
            · exact hserSeps.2.1
            · exact hrevSeps.2.1)
          (by
            intro p hp
            simp at hp
            rcases hp with rfl | rfl | rfl | rfl
            · exact huSeps.2.2
            · exact hnameSeps.2.2
            · exact hserSeps.2.2
            · exact hrevSeps.2.2)
          hnw hschNe

/-! ### The claims -/

/-- C1: for every input handled by the non-web dispatcher, if the first path
segment is a recognized platform series name the compact (v1) grammar is used
exclusively; otherwise the slash (v3) grammar is attempted first and its
result returned on success, and on any slash-grammar failure the compact
grammar is retried with the compact parser's own outcome (hence its error, on
double failure) surfaced.  In particular parsing precise/wordpress yields
schema cs, name wordpress, series precise, never reading precise as a user. -/
theorem C1_dispatch :
    (∀ u : GoURL, IsValidSeries (part0 (splitOnC '/' u.path)) = true →
        parseNonWebURL u = parseV1 u) ∧
    (∀ u : GoURL, IsValidSeries (part0 (splitOnC '/' u.path)) = false →
        (∀ r, parseV3 u = .ok r → parseNonWebURL u = .ok r) ∧
        (∀ e, parseV3 u = .error e → parseNonWebURL u = parseV1 u)) ∧
    ParseURL (ofStr "precise/wordpress") =
      .ok ⟨ofStr "cs", [], ofStr "wordpress", -1, ofStr "precise"⟩ := by
  refine ⟨?_, ?_, by rfl⟩
  · intro u h
    unfold parseNonWebURL
    rw [if_pos h]
  · intro u h
    constructor
    · intro r hr
      unfold parseNonWebURL
      rw [if_neg (by simp [h]), hr]
    · intro e he
      unfold parseNonWebURL
      rw [if_neg (by simp [h]), he]

/-- Witness for C1: the series-first branch at the concrete input
precise/wordpress. -/
theorem C1_dispatch_witness :
    parseNonWebURL ⟨[], [], ofStr "precise/wordpress", [], [], false⟩ =
      parseV1 ⟨[], [], ofStr "precise/wordpress", [], [], false⟩ :=
  C1_dispatch.1 ⟨[], [], ofStr "precise/wordpress", [], [], false⟩ (by decide)

/-- C2 counterexample: the URL parsed from cs:bar with the extra segment -7
has revision -7, its canonical rendering drops the negative revision, and
reparsing that rendering yields revision -1, so parse-render-parse is not a
fixed point for every parsed value. -/
theorem C2_roundtrip_counterexample :
    ParseURL (ofStr "cs:bar/-7") = .ok ⟨ofStr "cs", [], ofStr "bar", -7, []⟩ ∧
    ParseURL (urlString ⟨ofStr "cs", [], ofStr "bar", -7, []⟩) =
      .ok ⟨ofStr "cs", [], ofStr "bar", -1, []⟩ ∧
    URL.mk (ofStr "cs") [] (ofStr "bar") (-1) [] ≠
      URL.mk (ofStr "cs") [] (ofStr "bar") (-7) [] := by
  exact ⟨by rfl, by rfl, by decide⟩

/-- C2 amended: for every URL value produced by ParseURL whose revision is the
sentinel -1 or non-negative, whose user is not itself a valid series name, and
whose name, when it doubles as a valid series name, is shielded (with no user,
nothing else may be set; with a user, a series must be set), parsing the
canonical rendering is a fixed point: ParseURL on String of the value returns
the value with all five fields equal.  Each side condition is forced by a
concrete failure: negative revisions are dropped by String (the recorded
counterexample); a series-named user or an unshielded series-named name makes
the reparse take the series-first compact reading or consume the name as a
series. -/
theorem C2_roundtrip_amended (s : Str) (r : URL) (h : ParseURL s = .ok r)
    (hrev : r.Revision = -1 ∨ 0 ≤ r.Revision)
    (hus : IsValidSeries r.User = false)
    (hns : IsValidSeries r.Name = true →
      (r.User = [] → r.Series = [] ∧ r.Revision = -1) ∧
      (r.User ≠ [] → r.Series ≠ [])) :
    ParseURL (urlString r) = .ok r := by
  obtain ⟨hsch, hname, huser, hseries, hb⟩ := parseURL_inv s r h
  have hrev2 : r.Revision = -1 ∨ (0 ≤ r.Revision ∧ r.Revision ≤ (maxInt64 : Int)) := by
    rcases hrev with h1 | h1
    · exact Or.inl h1
    · exact Or.inr ⟨h1, hb.2⟩
  exact reparse_core r.Schema r.User r.Name r.Series r.Revision hsch hname huser
    hseries hrev2 hus hns

/-- Witness for C2: the round trip applied to the value parsed from
precise/wordpress. -/
theorem C2_roundtrip_witness :
    ParseURL (urlString ⟨ofStr "cs", [], ofStr "wordpress", -1, ofStr "precise"⟩) =
      .ok ⟨ofStr "cs", [], ofStr "wordpress", -1, ofStr "precise"⟩ :=
  C2_roundtrip_amended (ofStr "precise/wordpress")
    ⟨ofStr "cs", [], ofStr "wordpress", -1, ofStr "precise"⟩ (by rfl)
    (Or.inl rfl) (by decide) (by intro hh; exact absurd hh (by decide))

/-- C3 counterexample: ParseURL succeeds on cs:foo followed by a slash and
the segment -5, producing the negative
revision -5, which is neither the sentinel -1 nor non-negative, because the
slash grammar feeds the last segment to Atoi, which accepts signed input. -/
theorem C3_counterexample :
    ParseURL (ofStr "cs:foo/-5") = .ok ⟨ofStr "cs", [], ofStr "foo", -5, []⟩ ∧
    ¬((-5 : Int) = -1 ∨ 0 ≤ (-5 : Int)) := by
  exact ⟨by rfl, by decide⟩

/-- C3 amended: under the compact (v1) grammar the revision is the sentinel -1
or non-negative, because its revision digits come from the right-to-left scan
and carry no sign; the slash and web grammars can return negative revisions. -/
theorem C3_amended (u : GoURL) (r : URL) (h : parseV1 u = .ok r) :
    r.Revision = -1 ∨ 0 ≤ r.Revision := by
  unfold parseV1 at h
  split at h
  · exact absurd h (by simp)
  split at h
  · exact absurd h (by simp)
  split at h
  · exact absurd h (by simp)
  split at h
  · rcases (v1AfterTilde_inv _ _ _ _ h).2.2.2.2.2 with h1 | h1
    · exact Or.inl h1
    · exact Or.inr h1.1
  · rcases (v1AfterTilde_inv _ _ _ _ h).2.2.2.2.2 with h1 | h1
    · exact Or.inl h1
    · exact Or.inr h1.1

/-- Witness for C3 at a concrete compact-grammar parse with a revision. -/
theorem C3_amended_witness :
    (URL.mk (ofStr "cs") [] (ofStr "name") 3 (ofStr "precise")).Revision = -1 ∨
      0 ≤ (URL.mk (ofStr "cs") [] (ofStr "name") 3 (ofStr "precise")).Revision :=
  C3_amended ⟨ofStr "cs", [], ofStr "precise/name-3", [], [], false⟩
    ⟨ofStr "cs", [], ofStr "name", 3, ofStr "precise"⟩ (by rfl)

/-- C4 counterexample: the slash grammar accepts a local-schema URL with a
plain (untilded) owner segment, so ParseURL can succeed with schema local and
a non-empty user, contradicting the claimed invariant. -/
theorem C4_counterexample :
    ParseURL (ofStr "local:alice/foo") =
      .ok ⟨ofStr "local", ofStr "alice", ofStr "foo", -1, []⟩ ∧
    ofStr "alice" ≠ ([] : Str) := by
  exact ⟨by rfl, by decide⟩

/-- C4 amended: the user-empty-when-local invariant holds for the compact (v1)
grammar, whose only user form is the tilde prefix and which rejects it under
the local schema with LocalURLWithUser; the concrete local:~alice/trusty/foo
input fails with that error end to end.  The slash grammar, by contrast,
accepts a plain user segment with the local schema (see the counterexample). -/
theorem C4_amended :
    (∀ (u : GoURL) (r : URL), parseV1 u = .ok r → r.Schema = ofStr "local" →
      r.User = []) ∧
    ParseURL (ofStr "local:~alice/trusty/foo") = .error .localWithUser := by
  refine ⟨?_, by rfl⟩
  intro u r h hloc
  unfold parseV1 at h
  split at h
  · exact absurd h (by simp)
  split at h
  · exact absurd h (by simp)
  split at h
  · exact absurd h (by simp)
  rename_i hnotlocal
  split at h
  · rename_i htilde
    obtain ⟨hs, _, _, _, _, _⟩ := v1AfterTilde_inv _ _ _ _ h
    exact absurd ⟨htilde, hs.symm.trans hloc⟩ hnotlocal
  · obtain ⟨_, huEq, _, _, _, _⟩ := v1AfterTilde_inv _ _ _ _ h
    exact huEq

/-- Witness for C4 at a concrete local compact-grammar parse. -/
theorem C4_amended_witness :
    (URL.mk (ofStr "local") [] (ofStr "name") (-1) (ofStr "saucy")).User = [] :=
  C4_amended.1 ⟨ofStr "local", [], ofStr "saucy/name", [], [], false⟩
    ⟨ofStr "local", [], ofStr "name", -1, ofStr "saucy"⟩ (by rfl) (by rfl)

/-- C5: the compact grammar splits the name segment into name and revision
exactly when it ends in a hyphen immediately followed by a non-empty all-digit
suffix that is not the whole segment; the suffix is the maximal trailing digit
run (greedy right-to-left scan) and name validation applies to the split-off
left part afterwards, so cs:foo-1-2 fails with InvalidName while a segment
like n0-n0-n0 is never split and parses whole. -/
theorem C5_compact_split :
    (∀ seg nm rev, v1NameRev seg = .ok (nm, rev) → rev ≠ -1 →
      ∃ ds, seg = nm ++ '-' :: ds ∧ ds ≠ [] ∧ ds.all isDigitC = true ∧ nm ≠ [] ∧
        ds = (seg.reverse.takeWhile isDigitC).reverse ∧ go_atoi ds = some rev) ∧
    v1NameRev (ofStr "n0-n0-n0") = .ok (ofStr "n0-n0-n0", -1) ∧
    ParseURL (ofStr "cs:utopic/n0-n0-n0") =
      .ok ⟨ofStr "cs", [], ofStr "n0-n0-n0", -1, ofStr "utopic"⟩ ∧
    ParseURL (ofStr "cs:foo-1-2") = .error .invalidName := by
  refine ⟨?_, by rfl, by rfl, by rfl⟩
  intro seg nm rev h hrev
  obtain ⟨h1, h2, h3, h4, h5⟩ := v1NameRev_shape seg nm rev h hrev
  exact ⟨_, h1, h2, h3, h4, rfl, h5⟩

/-- Witness for C5: the split applied at the concrete segment ab-12. -/
theorem C5_compact_split_witness :
    ∃ ds, ofStr "ab-12" = ofStr "ab" ++ '-' :: ds ∧ ds ≠ [] ∧
      ds.all isDigitC = true ∧ ofStr "ab" ≠ ([] : Str) ∧
      ds = ((ofStr "ab-12").reverse.takeWhile isDigitC).reverse ∧
      go_atoi ds = some 12 :=
  C5_compact_split.1 (ofStr "ab-12") (ofStr "ab") 12 (by rfl) (by decide)

/-- C6 counterexample: in the web grammar a leftover segment after a consumed
series and revision fails with InvalidForm, not UnrecognizedParts, and a
segment following a numeric second segment is silently ignored (the parse even
succeeds), so leftovers do not fail with UnrecognizedParts. -/
theorem C6_counterexample :
    ParseURL (ofStr "https://host/u/alice/foo/trusty/3/extra") =
      .error .invalidForm ∧
    PErr.invalidForm ≠ PErr.unrecognizedParts ∧
    ParseURL (ofStr "https://host/u/alice/foo/1/extra") =
      .ok ⟨ofStr "cs", ofStr "alice", ofStr "foo", 1, []⟩ := by
  exact ⟨by rfl, by decide, by rfl⟩

/-- C6 amended: after the /u/user prefix and the name, a non-numeric segment
following a consumed series fails with MalformedRevision; a leftover segment
after series and revision fails with InvalidForm; a segment after a numeric
second segment is silently ignored; and the web parser never returns the
UnrecognizedParts error at all. -/
theorem C6_amended :
    ParseURL (ofStr "https://host/u/alice/foo/trusty/xx") =
      .error .malformedRevision ∧
    ParseURL (ofStr "https://host/u/alice/foo/trusty/3/extra") =
      .error .invalidForm ∧
    ParseURL (ofStr "https://host/u/alice/foo/1/extra") =
      .ok ⟨ofStr "cs", ofStr "alice", ofStr "foo", 1, []⟩ ∧
    (∀ u : GoURL, parseV2 u ≠ .error .unrecognizedParts) := by
  refine ⟨by rfl, by rfl, by rfl, ?_⟩
  intro u h
  unfold parseV2 at h
  split at h
  · simp at h
  split at h
  · exact v2Assemble_no_unrec _ _ _ (v2RevSeries_no_unrec _) h
  · exact v2Assemble_no_unrec _ _ _ (v2RevSeries_no_unrec _) h

/-- Witness for C6: the no-UnrecognizedParts fact at a concrete web URL. -/
theorem C6_amended_witness :
    parseV2 ⟨ofStr "https", [], ofStr "/name/extra/parts/here/too", [], [], false⟩ ≠
      .error .unrecognizedParts :=
  C6_amended.2.2.2 ⟨ofStr "https", [], ofStr "/name/extra/parts/here/too", [], [], false⟩

/-- C7: the web grammar and the slash grammar agree on the common shape
user/name/series/revision: both concrete inputs parse to schema cs, user
alice, name foo, series trusty, revision 3. -/
theorem C7_web_slash_agree :
    ParseURL (ofStr "https://store.example/u/alice/foo/trusty/3") =
      .ok ⟨ofStr "cs", ofStr "alice", ofStr "foo", 3, ofStr "trusty"⟩ ∧
    ParseURL (ofStr "cs:alice/foo/trusty/3") =
      .ok ⟨ofStr "cs", ofStr "alice", ofStr "foo", 3, ofStr "trusty"⟩ := by
  exact ⟨by rfl, by rfl⟩

/-- C8: InferURL parses its input and passes errors through; when the parsed
series is unset it fails with UnresolvedSeries on an empty default and
otherwise fills in the default; when the series is already set the default is
ignored.  Concretely infer of foo with default trusty yields series trusty and
with an empty default fails with UnresolvedSeries. -/
theorem C8_infer :
    (∀ raw ds : Str,
      (∀ e, ParseURL raw = .error e → InferURL raw ds = .error e) ∧
      (∀ u, ParseURL raw = .ok u → u.Series = [] → ds = [] →
        InferURL raw ds = .error .unresolvedSeries) ∧
      (∀ u, ParseURL raw = .ok u → u.Series = [] → ds ≠ [] →
        InferURL raw ds = .ok { u with Series := ds }) ∧
      (∀ u, ParseURL raw = .ok u → u.Series ≠ [] → InferURL raw ds = .ok u)) ∧
    InferURL (ofStr "foo") (ofStr "trusty") =
      .ok ⟨ofStr "cs", [], ofStr "foo", -1, ofStr "trusty"⟩ ∧
    InferURL (ofStr "foo") [] = .error .unresolvedSeries := by
  refine ⟨?_, by rfl, by rfl⟩
  intro raw ds
  refine ⟨?_, ?_, ?_, ?_⟩
  · intro e h
    unfold InferURL
    rw [h]
  · intro v h h1 h2
    unfold InferURL
    rw [h]
    simp [h1, h2]
  · intro v h h1 h2
    unfold InferURL
    rw [h]
    simp [h1, h2]
  · intro v h h1
    unfold InferURL
    rw [h]
    simp [h1]

/-- Witness for C8: the series-filling case at the concrete input foo with
default trusty. -/
theorem C8_infer_witness :
    InferURL (ofStr "foo") (ofStr "trusty") =
      .ok { URL.mk (ofStr "cs") [] (ofStr "foo") (-1) [] with Series := ofStr "trusty" } :=
  (C8_infer.1 (ofStr "foo") (ofStr "trusty")).2.2.1
    ⟨ofStr "cs", [], ofStr "foo", -1, []⟩ (by rfl) (by rfl) (by decide)

/-- C9: Quote passes every byte in the safe alphabet (ASCII letters, digits,
dot, hyphen) through unchanged, so an all-safe input is returned verbatim;
every other byte becomes its two-digit lowercase hex value surrounded by
underscores, as in Quote of a/b c; and Quote is injective on byte strings. -/
theorem C9_quote (s t : List Nat) (hs : ∀ b ∈ s, b < 256) (ht : ∀ b ∈ t, b < 256) :
    (s.all isSafeByte = true → Quote s = s) ∧
    (Quote s = Quote t → s = t) ∧
    Quote (ofBytes "a/b c") = ofBytes "a_2f_b_20_c" := by
  exact ⟨fun h => quote_safe_id s h, fun h => quote_inj s t hs ht h, by rfl⟩

/-- Witness for C9 at concrete byte strings. -/
theorem C9_quote_witness :
    ((ofBytes "ab").all isSafeByte = true → Quote (ofBytes "ab") = ofBytes "ab") ∧
    (Quote (ofBytes "ab") = Quote (ofBytes "cd") → ofBytes "ab" = ofBytes "cd") ∧
    Quote (ofBytes "a/b c") = ofBytes "a_2f_b_20_c" :=
  C9_quote (ofBytes "ab") (ofBytes "cd") (by decide) (by decide)

/-- C10 counterexample: the panic branch of the compact grammar is reachable:
a name segment whose hyphen-digit suffix exceeds the 64-bit integer range
makes Atoi fail with a range error and the parse panics. -/
theorem C10_counterexample :
    ParseURL (ofStr "cs:foo-99999999999999999999") = .error .panicStop := by rfl

/-- C10 amended: the suffix handed to Atoi by the compact grammar's scan is
always a non-empty all-digit string, so the conversion succeeds and no panic
occurs unless the suffix's value exceeds the 64-bit range: the split loop
panics exactly when the segment ends in a hyphen followed by a non-empty
digit run whose value exceeds 2^63 - 1, and parseV1URL panics only via that
loop on one of its path segments. -/
theorem C10_amended :
    (∀ seg : Str, v1NameRev seg = .error .panicStop ↔
      ∃ nm ds, seg = nm ++ '-' :: ds ∧ nm ≠ [] ∧ ds ≠ [] ∧ ds.all isDigitC = true ∧
        maxInt64 < digitsVal ds) ∧
    (∀ u : GoURL, parseV1 u = .error .panicStop →
      ∃ seg, seg ∈ splitOnC '/' u.path ∧ v1NameRev seg = .error .panicStop) := by
  refine ⟨v1NameRev_panic_iff, ?_⟩
  intro u h
  unfold parseV1 at h
  split at h
  · simp at h
  split at h
  · simp at h
  split at h
  · simp at h
  split at h
  · obtain ⟨seg, hmem, hp⟩ := v1AfterTilde_panic _ _ _ h
    exact ⟨seg, List.mem_of_mem_tail hmem, hp⟩
  · obtain ⟨seg, hmem, hp⟩ := v1AfterTilde_panic _ _ _ h
    exact ⟨seg, hmem, hp⟩

/-- Witness for C10: the overflow panic exhibited on a concrete input. -/
theorem C10_amended_witness :
    ∃ seg, seg ∈ splitOnC '/' (ofStr "foo-99999999999999999999") ∧
      v1NameRev seg = .error .panicStop :=
  C10_amended.2 ⟨ofStr "cs", [], ofStr "foo-99999999999999999999", [], [], false⟩ (by rfl)

end Charm
